import Mathlib

/-!
Verification of the i3-bind keybinding manager (Go) against its
natural-language specification.

The development shallow-embeds the core of the program: strings are lists
of characters, the config file system is a record of the config file and
its sibling backup file, and each regular expression of the source is
translated into an explicit matching function following Go's leftmost-first
(Perl preference) matching semantics, which the `regexp` package documents
for non-POSIX patterns.

Modelling boundaries: Unicode simple case folding (strings.EqualFold and
the regexp `(?i)` flag) is modelled as ASCII lower-casing, and
unicode.IsSpace is modelled on its Latin-1 subset; both are noted at the
definitions.  File writes either fully succeed or fail leaving the target
unchanged; failure is injected through explicit boolean oracles.
-/

/-- Strings of the embedded program: lists of characters (Go runes). -/
abbrev Str := List Char

/-- Whitespace class of the Go regexp escape backslash-s,
which is exactly tab, newline, form feed, carriage return and space. -/
def isSpaceRe (c : Char) : Bool :=
  c = ' ' || c = '\t' || c = '\n' || c = Char.ofNat 12 || c = Char.ofNat 13

/-- Whitespace predicate of Go's unicode.IsSpace, restricted to Latin-1:
tab through carriage return, space, next line (U+0085) and no-break space
(U+00A0).  Characters above Latin-1 with the White_Space property are not
modelled; no claim involves them. -/
def isSpaceGo (c : Char) : Bool :=
  (9 ≤ c.toNat && c.toNat ≤ 13) || c = ' ' || c.toNat = 133 || c.toNat = 160

/-- Model of strings.TrimSpace: drop leading and trailing whitespace. -/
def trimSpace (s : Str) : Str :=
  ((s.dropWhile isSpaceGo).reverse.dropWhile isSpaceGo).reverse

/-- Model of strings.TrimPrefix: remove one leading occurrence of pat. -/
def trimPre (pat s : Str) : Str :=
  if pat.isPrefixOf s then s.drop pat.length else s

/-- Model of strings.Contains: does sub occur as a contiguous substring. -/
def containsSub (sub : Str) : Str → Bool
  | [] => sub.isEmpty
  | c :: t => sub.isPrefixOf (c :: t) || containsSub sub t

/-- Case folding of one character. Go uses Unicode simple folding; the
model folds ASCII letters only (Char.toLower). -/
def foldChar (c : Char) : Char := c.toLower

/-- Model of strings.EqualFold: equality up to case folding. -/
def eqFold (s t : Str) : Bool := s.map foldChar == t.map foldChar

/-- Model of strings.Split(content, newline): the file content as lines.
Splitting the empty string yields one empty piece, as in Go. -/
def splitNL : Str → List Str
  | [] => [[]]
  | c :: t =>
    if c = '\n' then [] :: splitNL t
    else
      match splitNL t with
      | h :: r => (c :: h) :: r
      | [] => [[c]]

/-- Model of strings.Join(lines, newline). -/
def joinNL (ls : List Str) : Str := List.intercalate ['\n'] ls

example : splitNL "a\nb".toList = ["a".toList, "b".toList] := by decide
example : splitNL "".toList = [[]] := by decide
example : joinNL ["a".toList, "b".toList] = "a\nb".toList := by decide
example : trimSpace "  x y ".toList = "x y".toList := by decide
example : containsSub "bindsym".toList "x bindsym y".toList = true := by decide
example : eqFold "Mod4+Q".toList "mod4+q".toList = true := by decide

/-- Literal matching step shared by the translated regular expressions:
strip pat from the front of s, case-insensitively when ci is set, returning
the rest.  This is the semantics of a regexp.QuoteMeta literal. -/
def litStrip (ci : Bool) : Str → Str → Option Str
  | [], s => some s
  | _ :: _, [] => none
  | p :: ps, c :: cs =>
    if (if ci then foldChar p = foldChar c else p = c) then litStrip ci ps cs
    else none

/-- Scan helper for firstHashBoundary: the current suffix sits a characters
into the action candidate; succeed at the first suffix that is whitespace
followed by a hash. -/
def fbGo : Str → Nat → Option Nat
  | [], _ => none
  | c :: t, a =>
    if ((c :: t).dropWhile isSpaceRe).head? = some '#' then some a
    else fbGo t (a + 1)

/-- Position of the comment boundary inside the post-key remainder A: the
least a with 1 ≤ a < A.length such that A.drop a consists of optional
whitespace followed by a hash.  Go's lazy action group (.+?) grows one
character at a time and the optional comment group is tried first at each
stop, so the first such boundary wins. -/
def firstHashBoundary : Str → Option Nat
  | [] => none
  | _ :: rest => fbGo rest 1

/-- Comment text to the right of a boundary suffix: skip the whitespace,
the hash, then the whitespace that the comment group's leading pattern
consumes. -/
def hashTail (s : Str) : Str := ((s.dropWhile isSpaceRe).drop 1).dropWhile isSpaceRe

/-- Split of the post-key remainder A into the action capture and the
optional comment capture, per the tail (.+?)(?:\s*#\s*(.*))?$ of the
parser's regular expression under leftmost-first matching. -/
def splitAC (A : Str) : Str × Option Str :=
  match firstHashBoundary A with
  | some a => (A.take a, some (hashTail (A.drop a)))
  | none => (A, none)

/-- Action capture (group 1) of the tail \s+(.+?)(?:\s*#.*)?$ used by the
comment-locating regular expressions, applied to what follows the key.
When everything after the key is whitespace, Go's backtracking hands the
last whitespace character to the lazy action group provided at least two
remain. -/
def tailCapture : Str → Option Str
  | [] => none
  | c :: t =>
    if isSpaceRe c then
      let A := (c :: t).dropWhile isSpaceRe
      if A.isEmpty then
        if 2 ≤ (c :: t).length then some [(c :: t).getLastD ' '] else none
      else some (splitAC A).1
    else none

/-- Result of matching one line against the parser's regular expression
^\s*bindsym\s+([^\s]+)\s+(.+?)(?:\s*#\s*(.*))?$ : the three captures.
commentRaw is none when the optional comment group does not participate. -/
structure ParsedLine where
  key : Str
  actionRaw : Str
  commentRaw : Option Str
deriving Repr, DecidableEq

/-- Translation of the parser's regular expression match on one line. -/
def parseLine (l : Str) : Option ParsedLine :=
  let s1 := l.dropWhile isSpaceRe
  if ("bindsym".toList).isPrefixOf s1 then
    match s1.drop 7 with
    | [] => none
    | c :: t =>
      if isSpaceRe c then
        let r2 := (c :: t).dropWhile isSpaceRe
        let key := r2.takeWhile (fun ch => !isSpaceRe ch)
        let r3 := r2.dropWhile (fun ch => !isSpaceRe ch)
        if key.isEmpty then none
        else
          let A := r3.dropWhile isSpaceRe
          if A.isEmpty then
            if 2 ≤ r3.length then some ⟨key, [r3.getLastD ' '], none⟩ else none
          else some ⟨key, (splitAC A).1, (splitAC A).2⟩
      else none
  else none

/-- Binding record of the source (struct Binding). -/
structure Binding where
  key : Str
  action : Str
  comment : Str
  line : Nat
  raw : Str
deriving Repr, DecidableEq

/-- Comment inherited from the previous line when a matched line has no
inline comment: the previous line's trimmed content once the leading hash
is removed, unless that content ends in a colon (a section heading) or the
previous line is not a comment, in which case the comment stays empty. -/
def inheritedComment (prev : Str) : Str :=
  let p := trimSpace prev
  if (['#'] : Str).isPrefixOf p then
    let t := trimSpace (trimPre ['#'] p)
    if ([':'] : Str).isSuffixOf t then [] else t
  else []

/-- Construction of one Binding from a matched line, its predecessor, and
its zero-based index, exactly as the loop body of parseBindings does. -/
def mkBinding (prevOpt : Option Str) (l : Str) (i : Nat) (pl : ParsedLine) : Binding :=
  let c0 := trimSpace (pl.commentRaw.getD [])
  let c :=
    if c0.isEmpty then
      match prevOpt with
      | some prev => inheritedComment prev
      | none => []
    else c0
  ⟨pl.key, trimSpace pl.actionRaw, c, i + 1, l⟩

/-- Recursion of parseBindings over the lines, carrying the previous line
and the zero-based index of the current line. -/
def parseBindingsGo : Option Str → Nat → List Str → List Binding
  | _, _, [] => []
  | prevOpt, i, l :: rest =>
    (match parseLine l with
     | some pl => [mkBinding prevOpt l i pl]
     | none => []) ++ parseBindingsGo (some l) (i + 1) rest

/-- Translation of parseBindings. -/
def parseBindings (lines : List Str) : List Binding := parseBindingsGo none 0 lines

example :
    parseBindings ["# open terminal".toList, "bindsym mod4+Return exec alacritty".toList] =
      [⟨"mod4+Return".toList, "exec alacritty".toList, "open terminal".toList, 2,
        "bindsym mod4+Return exec alacritty".toList⟩] := by decide

example :
    parseBindings ["# Launchers:".toList, "bindsym mod4+d exec dmenu_run".toList] =
      [⟨"mod4+d".toList, "exec dmenu_run".toList, [], 2,
        "bindsym mod4+d exec dmenu_run".toList⟩] := by decide

example :
    (parseBindings ["bindsym a b # c # d".toList]).map (fun b => (b.action, b.comment)) =
      [("b".toList, "c # d".toList)] := by decide

example : (parseLine "bindsym k ".toList).isSome = false := by decide
example : parseLine "bindsym k  ".toList = some ⟨"k".toList, [' '], none⟩ := by decide
example : (parseLine "bindsym k".toList).isSome = false := by decide

/-- Match of the deletion pattern's tail \s+KEY\s+ at the current suffix:
the key may be tried here, or after consuming further whitespace, per the
plus quantifier's backtracking; at least one whitespace character must
follow the key. -/
def keyWsTail (key : Str) (s : Str) : Bool :=
  match litStrip true key s with
  | some (c :: _) => isSpaceRe c
  | _ => false

/-- Backtracking search for \s+KEY\s+ once at least one whitespace
character has been consumed. -/
def wsKeyGo (key : Str) : Str → Bool
  | [] => false
  | c :: t => keyWsTail key (c :: t) || (isSpaceRe c && wsKeyGo key t)

/-- Translation of removeBinding's deletion test, the regular expression
(?i)^\s*bindsym\s+QuoteMeta(key)\s+ matched as a prefix of the line. -/
def removeMatches (key : Str) (l : Str) : Bool :=
  match litStrip true ("bindsym".toList) (l.dropWhile isSpaceRe) with
  | some (c :: t) => isSpaceRe c && wsKeyGo key t
  | _ => false

/-- Backtracking search for the comment-locating pattern's part
KEY\s+(.+?)(?:\s*#.*)?$ once at least one whitespace character separates
it from the bindsym keyword; longer whitespace runs are preferred, as the
greedy plus quantifier does.  Returns the action capture (group 1). -/
def cpGo (ci : Bool) (key : Str) : Str → Option Str
  | [] => Option.bind (litStrip ci key []) tailCapture
  | c :: t =>
    (if isSpaceRe c then cpGo ci key t else none).orElse
      (fun _ => Option.bind (litStrip ci key (c :: t)) tailCapture)

/-- Translation of the comment-locating regular expression
^\s*bindsym\s+QuoteMeta(key)\s+(.+?)(?:\s*#.*)?$ of commentBinding; the
ci flag is the presence of the (?i) flag, which one source revision has
and the other lacks.  Returns the action capture on a match. -/
def commentPat (ci : Bool) (key : Str) (l : Str) : Option Str :=
  match litStrip ci ("bindsym".toList) (l.dropWhile isSpaceRe) with
  | some (c :: t) => if isSpaceRe c then cpGo ci key t else none
  | _ => none

example : removeMatches "mod4+Q".toList "  bindsym mod4+q exec firefox".toList = true := by decide
example : removeMatches "mod4+q".toList "bindsym mod4+qq exec firefox".toList = false := by decide
example : (commentPat true "MOD4+Q".toList "bindsym mod4+q exec x".toList) = some "exec x".toList := by decide
example : (commentPat false "MOD4+Q".toList "bindsym mod4+q exec x".toList) = none := by decide
example : (commentPat false "mod4+q".toList "bindsym mod4+q exec x # old".toList) = some "exec x".toList := by decide

/-- File system state of the tool: the config file and its sibling backup
file, each either absent or holding content. -/
structure FS where
  config : Option Str
  backup : Option Str
deriving Repr, DecidableEq

/-- Errors surfaced by the operations (each makes the Go program print an
error and exit non-zero). -/
inductive OpErr where
  | notFound
  | duplicateKey
  | backupFailure
  | writeFailure
deriving Repr, DecidableEq

/-- Translation of writeConfig: join the lines, write that content to the
backup path, then write it to the config path.  The booleans bFail and
wFail are failure oracles for the two ioutil.WriteFile calls; a failing
write leaves its target unchanged. -/
def writeConfig (bFail wFail : Bool) (fs : FS) (lines : List Str) :
    FS × Except OpErr Unit :=
  let content := joinNL lines
  if bFail then (fs, .error .backupFailure)
  else
    let fs1 : FS := ⟨fs.config, some content⟩
    if wFail then (fs1, .error .writeFailure)
    else (⟨some content, some content⟩, .ok ())

/-- Index position where addBinding inserts the new line: one past the
last line whose trimmed form contains the substring bindsym; at the end
when no line does.  The source scans downward and stops at the first hit,
which is the last hit overall. -/
def lastBindsym : List Str → Option Nat
  | [] => none
  | l :: rest =>
    match lastBindsym rest with
    | some j => some (j + 1)
    | none => if containsSub ("bindsym".toList) (trimSpace l) then some 0 else none

/-- Insertion index of addBinding. -/
def lastBindsymIdx (lines : List Str) : Nat :=
  match lastBindsym lines with
  | some i => i + 1
  | none => lines.length

/-- Translation of addBinding: read the config, reject a case-insensitive
duplicate key, insert the constructed line, save.  readConfig's failure on
an absent file is the notFound error. -/
def addBinding (bFail wFail : Bool) (fs : FS) (key action : Str) :
    FS × Except OpErr Unit :=
  match fs.config with
  | none => (fs, .error .notFound)
  | some content =>
    let lines := splitNL content
    let bindings := parseBindings lines
    if bindings.any (fun b => eqFold b.key key) then (fs, .error .duplicateKey)
    else
      let newBinding := "bindsym ".toList ++ key ++ [' '] ++ action
      let insertIndex := lastBindsymIdx lines
      let newLines := lines.take insertIndex ++ [newBinding] ++ lines.drop insertIndex
      writeConfig bFail wFail fs newLines

/-- Translation of removeBinding: read, require a case-insensitive key
match among the parsed bindings, keep exactly the lines the deletion
pattern does not match, save. -/
def removeBinding (bFail wFail : Bool) (fs : FS) (key : Str) :
    FS × Except OpErr Unit :=
  match fs.config with
  | none => (fs, .error .notFound)
  | some content =>
    let lines := splitNL content
    let bindings := parseBindings lines
    if bindings.any (fun b => eqFold b.key key) then
      writeConfig bFail wFail fs (lines.filter (fun l => !removeMatches key l))
    else (fs, .error .notFound)

/-- Rewrite step of the first source revision's commentBinding: the first
line matching the case-sensitive locating pattern is replaced by
"bindsym key action # text" built from the pattern's action capture. -/
def rewriteInline (key text : Str) : List Str → List Str
  | [] => []
  | l :: rest =>
    match commentPat false key l with
    | some m1 => ("bindsym ".toList ++ key ++ [' '] ++ m1 ++ " # ".toList ++ text) :: rest
    | none => l :: rewriteInline key text rest

/-- Translation of the first source revision's commentBinding (main.go):
require a case-insensitive key match among the parsed bindings, rewrite
the located line in place with an inline comment, save. -/
def commentBindingInline (bFail wFail : Bool) (fs : FS) (key text : Str) :
    FS × Except OpErr Unit :=
  match fs.config with
  | none => (fs, .error .notFound)
  | some content =>
    let lines := splitNL content
    if (parseBindings lines).any (fun b => eqFold b.key key) then
      writeConfig bFail wFail fs (rewriteInline key text lines)
    else (fs, .error .notFound)

/-- Translation of the insertLine helper. -/
def insertLine (lines : List Str) (index : Nat) (newLine : Str) : List Str :=
  lines.take index ++ [newLine] ++ lines.drop index

/-- Shape-directed edit of the second source revision's commentBinding:
at the first line matching the case-insensitive locating pattern, replace
the preceding comment line with "# text", unless the preceding line is a
section heading, absent or not a comment, in which case "# text" is
inserted directly above the matched line. -/
def commentEdit (key text : Str) (lines : List Str) : List Str :=
  match lines.findIdx? (fun l => (commentPat true key l).isSome) with
  | none => lines
  | some i =>
    if i = 0 then insertLine lines 0 ("# ".toList ++ text)
    else
      let prevLine := trimSpace (lines.getD (i - 1) [])
      if (['#'] : Str).isPrefixOf prevLine then
        let trimmed := trimSpace (trimPre ['#'] prevLine)
        if ([':'] : Str).isSuffixOf trimmed then insertLine lines i ("# ".toList ++ text)
        else lines.set (i - 1) ("# ".toList ++ text)
      else insertLine lines i ("# ".toList ++ text)

/-- Translation of the second source revision's commentBinding: require a
case-insensitive key match among the parsed bindings, apply the
shape-directed edit, save. -/
def commentBindingPrev (bFail wFail : Bool) (fs : FS) (key text : Str) :
    FS × Except OpErr Unit :=
  match fs.config with
  | none => (fs, .error .notFound)
  | some content =>
    let lines := splitNL content
    if (parseBindings lines).any (fun b => eqFold b.key key) then
      writeConfig bFail wFail fs (commentEdit key text lines)
    else (fs, .error .notFound)

example :
    (addBinding false false ⟨some "# cfg".toList, none⟩ "mod4+q".toList "kill".toList).1.config =
      some "# cfg\nbindsym mod4+q kill".toList := by decide

example :
    (removeBinding false false ⟨some "bindsym mod4+q kill\n# x".toList, none⟩
      "MOD4+Q".toList).1.config = some "# x".toList := by decide

example :
    (commentBindingPrev false false ⟨some "bindsym a b".toList, none⟩
      "a".toList "hey".toList).1.config = some "# hey\nbindsym a b".toList := by decide

example :
    (commentBindingInline false false ⟨some "bindsym a b # old".toList, none⟩
      "a".toList "new".toList).1.config = some "bindsym a b # new".toList := by decide

instance : DecidableEq (Except OpErr Unit) := fun
  | .error e₁, .error e₂ =>
    if h : e₁ = e₂ then .isTrue (by rw [h])
    else .isFalse (by intro hh; cases hh; exact h rfl)
  | .error _, .ok _ => .isFalse (by intro h; cases h)
  | .ok _, .error _ => .isFalse (by intro h; cases h)
  | .ok (), .ok () => .isTrue rfl

/-- Claim C2: when writing the backup file fails, save returns the
BackupFailure error without touching the config path, so the original
file is never overwritten unless the backup write succeeded first. -/
theorem c2_backup_failure_aborts (fs : FS) (lines : List Str) (wFail : Bool) :
    writeConfig true wFail fs lines = (fs, .error .backupFailure) := rfl

/-- Claim C1 (refuted): the content written to the sibling backup path is
the newly computed content, not the pre-save on-disk content.  Concretely,
with "a" on disk, saving the line "b" leaves "b" in the backup file,
which differs from the pre-mutation snapshot "a". -/
theorem c1_backup_holds_new_content :
    (writeConfig false false ⟨some ['a'], none⟩ [['b']]).1.backup = some ['b'] ∧
    (FS.mk (some ['a']) none).config = some ['a'] ∧
    some ['b'] ≠ some ['a'] := by decide

/-- Claim C3: add with a key that case-insensitively equals some parsed
binding's key fails with DuplicateKey and performs no write at all: the
returned file system is the one passed in. -/
theorem c3_duplicate_key_no_write (bFail wFail : Bool) (c : Str) (bk : Option Str)
    (key action : Str)
    (h : ∃ b ∈ parseBindings (splitNL c), eqFold b.key key = true) :
    addBinding bFail wFail ⟨some c, bk⟩ key action = (⟨some c, bk⟩, .error .duplicateKey) := by
  have hany : (parseBindings (splitNL c)).any (fun b => eqFold b.key key) = true := by
    rw [List.any_eq_true]
    obtain ⟨b, hb, he⟩ := h
    exact ⟨b, hb, he⟩
  simp [addBinding, hany]

/-- Witness for C3 at a concrete input: the config holds mod4+q and the
add of MOD4+Q is rejected with the file untouched. -/
theorem c3_witness :
    addBinding false false ⟨some "bindsym mod4+q kill".toList, none⟩
        "MOD4+Q".toList "exec x".toList =
      (⟨some "bindsym mod4+q kill".toList, none⟩, .error .duplicateKey) :=
  c3_duplicate_key_no_write false false _ none _ _ (by decide)

/-- Claim C5: remove fails with NotFound exactly when no parsed binding's
key equals the given key case-insensitively; on success it keeps exactly
the lines the deletion pattern removeMatches does not match (that pattern
being bindsym-space-key-space, case-insensitive, anchored at line start
modulo leading whitespace), writing the result to disk. -/
theorem c5_remove_characterization (c : Str) (bk : Option Str) (key : Str) :
    removeBinding false false ⟨some c, bk⟩ key =
      if ∃ b ∈ parseBindings (splitNL c), eqFold b.key key = true then
        (⟨some (joinNL ((splitNL c).filter (fun l => !removeMatches key l))),
          some (joinNL ((splitNL c).filter (fun l => !removeMatches key l)))⟩, .ok ())
      else (⟨some c, bk⟩, .error .notFound) := by
  by_cases h : ∃ b ∈ parseBindings (splitNL c), eqFold b.key key = true
  · have hany : (parseBindings (splitNL c)).any (fun b => eqFold b.key key) = true := by
      rw [List.any_eq_true]
      obtain ⟨b, hb, he⟩ := h
      exact ⟨b, hb, he⟩
    simp [removeBinding, writeConfig, hany, h]
  · have hany : (parseBindings (splitNL c)).any (fun b => eqFold b.key key) = false := by
      rw [List.any_eq_false]
      intro b hb
      simp only [Bool.not_eq_true]
      rcases hbe : eqFold b.key key with _ | _
      · rfl
      · exact absurd ⟨b, hb, hbe⟩ h
    simp [removeBinding, hany, h]

/-- Claim C6 (code bug in the first revision): the locating pattern of
main.go's commentBinding lacks the case-insensitivity flag that the
deletion pattern has, so a key that names a binding only up to letter case
passes the NotFound check yet locates no line: the operation reports
success while the config content is written back unchanged. -/
theorem c6_comment_locate_case_bug :
    (∃ b ∈ parseBindings (splitNL "bindsym mod4+q exec x".toList),
        eqFold b.key "MOD4+Q".toList = true) ∧
    commentBindingInline false false ⟨some "bindsym mod4+q exec x".toList, none⟩
        "MOD4+Q".toList "note".toList =
      (⟨some "bindsym mod4+q exec x".toList, some "bindsym mod4+q exec x".toList⟩,
        .ok ()) := by decide

/-- Claim C10 (refuted): on the line bindsym a b hash c hash d, the parser
assigns action b and comment c-hash-d, splitting at the first comment
boundary, not at the last one as the claim states (which would give
action b-hash-c and comment d). -/
theorem c10_counterexample :
    (parseBindings ["bindsym a b # c # d".toList]).map (fun b => (b.action, b.comment)) =
      [("b".toList, "c # d".toList)] ∧
    ("b".toList, "c # d".toList) ≠ ("b # c".toList, "d".toList) := by decide

/-- Leading-whitespace trim, the first half of trimSpace. -/
def trimStart (s : Str) : Str := s.dropWhile isSpaceGo

/-- Trailing-whitespace trim, the second half of trimSpace. -/
def trimEnd (s : Str) : Str := (s.reverse.dropWhile isSpaceGo).reverse

theorem trimSpace_eq_trimEnd_trimStart (s : Str) : trimSpace s = trimEnd (trimStart s) := rfl

theorem dropWhileSplit (p : Char → Bool) (l₁ l₂ : Str) :
    (l₁ ++ l₂).dropWhile p =
      if l₁.dropWhile p = [] then l₂.dropWhile p else l₁.dropWhile p ++ l₂ := by
  induction l₁ with
  | nil => simp
  | cons a t ih =>
    by_cases h : p a
    · simpa [List.dropWhile_cons, h] using ih
    · simp [List.dropWhile_cons, h]

theorem trimEnd_nil : trimEnd [] = [] := rfl

theorem trimEnd_cons_of_not_ws (a : Char) (x : Str) (h : isSpaceGo a = false) :
    trimEnd (a :: x) = a :: trimEnd x := by
  unfold trimEnd
  rw [List.reverse_cons, dropWhileSplit]
  by_cases hx : x.reverse.dropWhile isSpaceGo = []
  · simp [hx, List.dropWhile_cons, h]
  · simp [hx]

theorem trimEnd_cons_of_ws (a : Char) (x : Str) (h : isSpaceGo a = true) :
    trimEnd (a :: x) = if trimEnd x = [] then [] else a :: trimEnd x := by
  unfold trimEnd
  rw [List.reverse_cons, dropWhileSplit]
  by_cases hx : x.reverse.dropWhile isSpaceGo = []
  · simp [hx, List.dropWhile_cons, h]
  · have : (x.reverse.dropWhile isSpaceGo).reverse ≠ [] := by simpa using hx
    simp [hx, this]

theorem trimEnd_idem (x : Str) : trimEnd (trimEnd x) = trimEnd x := by
  induction x with
  | nil => rfl
  | cons a t ih =>
    by_cases h : isSpaceGo a
    · rw [trimEnd_cons_of_ws a t h]
      by_cases ht : trimEnd t = []
      · simp [ht, trimEnd_nil]
      · simp only [ht, if_false]
        rw [trimEnd_cons_of_ws a (trimEnd t) h, ih]
        simp [ht]
    · rw [trimEnd_cons_of_not_ws a t (by simpa using h),
        trimEnd_cons_of_not_ws a (trimEnd t) (by simpa using h), ih]

theorem trimStart_cons_of_ws (a : Char) (x : Str) (h : isSpaceGo a = true) :
    trimStart (a :: x) = trimStart x := by
  simp [trimStart, List.dropWhile_cons, h]

theorem trimStart_cons_of_not_ws (a : Char) (x : Str) (h : isSpaceGo a = false) :
    trimStart (a :: x) = a :: x := by
  simp [trimStart, List.dropWhile_cons, h]

theorem trimStart_trimEnd_comm (x : Str) : trimStart (trimEnd x) = trimEnd (trimStart x) := by
  induction x with
  | nil => rfl
  | cons a t ih =>
    by_cases h : isSpaceGo a
    · rw [trimEnd_cons_of_ws a t h, trimStart_cons_of_ws a t h, ← ih]
      by_cases ht : trimEnd t = []
      · simp [ht, trimStart]
      · rw [if_neg ht, trimStart_cons_of_ws a (trimEnd t) h]
    · rw [trimEnd_cons_of_not_ws a t (by simpa using h),
        trimStart_cons_of_not_ws a t (by simpa using h),
        trimStart_cons_of_not_ws a (trimEnd t) (by simpa using h),
        trimEnd_cons_of_not_ws a t (by simpa using h)]

theorem trimSpace_trimEnd (x : Str) : trimSpace (trimEnd x) = trimSpace x := by
  rw [trimSpace_eq_trimEnd_trimStart, trimSpace_eq_trimEnd_trimStart,
    trimStart_trimEnd_comm, trimEnd_idem]

theorem trimSpace_cons_of_ws (a : Char) (x : Str) (h : isSpaceGo a = true) :
    trimSpace (a :: x) = trimSpace x := by
  rw [trimSpace_eq_trimEnd_trimStart, trimSpace_eq_trimEnd_trimStart,
    trimStart_cons_of_ws a x h]

theorem trimSpace_hash_cons (t : Str) :
    trimSpace ('#' :: t) = '#' :: trimEnd t := by
  rw [trimSpace_eq_trimEnd_trimStart, trimStart_cons_of_not_ws '#' t (by decide),
    trimEnd_cons_of_not_ws '#' t (by decide)]

theorem splitNL_ne_nil (s : Str) : splitNL s ≠ [] := by
  induction s with
  | nil => simp [splitNL]
  | cons c t ih =>
    by_cases h : c = '\n'
    · simp [splitNL, h]
    · rcases ht : splitNL t with _ | ⟨h₀, r₀⟩
      · exact absurd ht ih
      · simp [splitNL, h, ht]

theorem noNL_of_mem_splitNL (s : Str) (l : Str) (hl : l ∈ splitNL s) : '\n' ∉ l := by
  induction s generalizing l with
  | nil =>
    simp only [splitNL, List.mem_singleton] at hl
    simp [hl]
  | cons c t ih =>
    by_cases h : c = '\n'
    · have he : splitNL (c :: t) = [] :: splitNL t := by simp [splitNL, h]
      rw [he] at hl
      rcases List.mem_cons.1 hl with hl | hl
      · simp [hl]
      · exact ih l hl
    · rcases ht : splitNL t with _ | ⟨h₀, r₀⟩
      · exact absurd ht (splitNL_ne_nil t)
      · have he : splitNL (c :: t) = (c :: h₀) :: r₀ := by simp [splitNL, h, ht]
        rw [he] at hl
        rcases List.mem_cons.1 hl with hl | hl
        · subst hl
          intro hmem
          rcases List.mem_cons.1 hmem with hc | hc
          · exact h hc.symm
          · exact ih h₀ (by simp [ht]) hc
        · exact ih l (by rw [ht]; exact List.mem_cons_of_mem _ hl)

theorem splitNL_of_noNL (s : Str) (hs : '\n' ∉ s) : splitNL s = [s] := by
  induction s with
  | nil => rfl
  | cons c t ih =>
    have hc : ¬(c = '\n') := fun h => hs (by simp [h])
    have ht : '\n' ∉ t := fun h => hs (List.mem_cons_of_mem c h)
    simp [splitNL, hc, ih ht]

theorem splitNL_append_newline (x y : Str) :
    splitNL (x ++ '\n' :: y) = splitNL x ++ splitNL y := by
  induction x with
  | nil => simp [splitNL]
  | cons c t ih =>
    by_cases h : c = '\n'
    · simp [splitNL, h, ih]
    · rcases ht : splitNL t with _ | ⟨h₀, r₀⟩
      · exact absurd ht (splitNL_ne_nil t)
      · simp only [List.cons_append, splitNL, h, if_neg h, ih, ht, List.append_eq]
        rfl

theorem joinNL_cons₂ (x y : Str) (r : List Str) :
    joinNL (x :: y :: r) = x ++ '\n' :: joinNL (y :: r) := by
  simp only [joinNL, List.intercalate]
  rw [List.intersperse_cons₂]
  simp

theorem joinNL_single (x : Str) : joinNL [x] = x := by
  simp [joinNL, List.intercalate, List.intersperse]

theorem splitNL_joinNL_flat (LS : List Str) (h : LS ≠ []) :
    splitNL (joinNL LS) = (LS.map splitNL).flatten := by
  induction LS with
  | nil => exact absurd rfl h
  | cons x r ih =>
    rcases r with _ | ⟨y, r'⟩
    · simp [joinNL_single, splitNL]
    · rw [joinNL_cons₂, splitNL_append_newline, ih (by simp)]
      simp

theorem flatten_map_singleton (LS : List Str) :
    (LS.map (fun l => [l])).flatten = LS := by
  induction LS with
  | nil => rfl
  | cons x r ih => simp [ih]

theorem splitNL_joinNL (LS : List Str) (hne : LS ≠ [])
    (hnl : ∀ l ∈ LS, '\n' ∉ l) : splitNL (joinNL LS) = LS := by
  rw [splitNL_joinNL_flat LS hne]
  have hmap : LS.map splitNL = LS.map (fun l => [l]) := by
    apply List.map_congr_left
    intro l hl
    exact splitNL_of_noNL l (hnl l hl)
  rw [hmap, flatten_map_singleton]

theorem count_le_flatten_splitNL (l : Str) (hnl : '\n' ∉ l) (LS : List Str) :
    LS.count l ≤ ((LS.map splitNL).flatten).count l := by
  induction LS with
  | nil => simp
  | cons x r ih =>
    simp only [List.map_cons, List.flatten_cons, List.count_append, List.count_cons]
    by_cases hx : x = l
    · subst hx
      rw [splitNL_of_noNL x hnl]
      simp only [List.count_singleton]
      omega
    · have hbx : (x == l) = false := by
        rw [beq_eq_false_iff_ne]
        exact hx
      have h0 : (if (x == l) = true then 1 else 0) = 0 := by simp [hbx]
      omega

theorem count_le_splitNL_joinNL (l : Str) (hnl : '\n' ∉ l) (LS : List Str) :
    LS.count l ≤ (splitNL (joinNL LS)).count l := by
  rcases LS with _ | ⟨x, r⟩
  · simp
  · rw [splitNL_joinNL_flat _ (by simp)]
    exact count_le_flatten_splitNL l hnl (x :: r)

theorem reWs_goWs (c : Char) (h : isSpaceRe c = true) : isSpaceGo c = true := by
  simp only [isSpaceRe, Bool.or_eq_true, decide_eq_true_eq] at h
  rcases h with (((h | h) | h) | h) | h <;> subst h <;> decide

theorem dropWhile_dropWhile_of_imp (p q : Char → Bool)
    (himp : ∀ c, p c = true → q c = true) (s : Str) :
    (s.dropWhile p).dropWhile q = s.dropWhile q := by
  induction s with
  | nil => rfl
  | cons a t ih =>
    by_cases hp : p a
    · rw [List.dropWhile_cons_of_pos hp, ih, List.dropWhile_cons_of_pos (himp a hp)]
    · rw [List.dropWhile_cons_of_neg hp]

theorem toNat_facts_of_ws (c : Char) (h : isSpaceGo c = true) :
    (9 ≤ c.toNat ∧ c.toNat ≤ 13) ∨ c.toNat = 32 ∨ c.toNat = 133 ∨ c.toNat = 160 := by
  simp only [isSpaceGo, Bool.or_eq_true, Bool.and_eq_true, decide_eq_true_eq] at h
  rcases h with ((h | h) | h) | h
  · exact Or.inl ⟨h.1, h.2⟩
  · subst h
    right
    left
    rfl
  · exact Or.inr (Or.inr (Or.inl h))
  · exact Or.inr (Or.inr (Or.inr h))

theorem foldChar_self_of_ws (c : Char) (h : isSpaceGo c = true) : foldChar c = c := by
  have hn := toNat_facts_of_ws c h
  have hcond : ¬(c.toNat ≥ 65 ∧ c.toNat ≤ 90) := by omega
  simp only [foldChar, Char.toLower]
  rw [if_neg hcond]

theorem ne_b_of_ws (c : Char) (h : isSpaceGo c = true) : c ≠ 'b' := by
  have hn := toNat_facts_of_ws c h
  intro hb
  have : c.toNat = 98 := by rw [hb]; rfl
  omega

theorem bindsymStrip_none_of_hash (ci : Bool) (l : Str)
    (h : ∃ w, l.dropWhile isSpaceGo = '#' :: w) :
    litStrip ci ("bindsym".toList) (l.dropWhile isSpaceRe) = none := by
  obtain ⟨w, hw⟩ := h
  have hcomp : (l.dropWhile isSpaceRe).dropWhile isSpaceGo = l.dropWhile isSpaceGo :=
    dropWhile_dropWhile_of_imp isSpaceRe isSpaceGo reWs_goWs l
  rcases hd : l.dropWhile isSpaceRe with _ | ⟨d0, d'⟩
  · rw [hd] at hcomp
    rw [hw] at hcomp
    exact absurd hcomp.symm (by simp)
  · have hstep : ("bindsym".toList : Str) = 'b' :: "indsym".toList := rfl
    rw [hstep]
    have hd0 : (if ci then foldChar 'b' = foldChar d0 else 'b' = d0) = False := by
      rw [hd] at hcomp
      by_cases hws : isSpaceGo d0
      · have hself := foldChar_self_of_ws d0 hws
        have hne := ne_b_of_ws d0 hws
        cases ci
        · simp only [if_false, eq_iff_iff, iff_false]
          exact fun hh => hne hh.symm
        · simp only [if_true, eq_iff_iff, iff_false, hself]
          have : foldChar 'b' = 'b' := by decide
          rw [this]
          exact fun hh => hne hh.symm
      · rw [List.dropWhile_cons_of_neg hws] at hcomp
        rw [hw] at hcomp
        have hd0e : d0 = '#' := (List.cons.injEq _ _ _ _ ▸ hcomp).1
        subst hd0e
        cases ci <;> simp only [if_true, if_false, eq_iff_iff, iff_false] <;> decide
    simp only [litStrip, hd0]
    simp

theorem trimEnd_prefix (z : Str) : trimEnd z <+: z := by
  have h1 : z.reverse.dropWhile isSpaceGo <:+ z.reverse := List.dropWhile_suffix _
  have h2 := List.reverse_prefix.2 h1
  rwa [List.reverse_reverse] at h2

/-- Section-heading test: a line whose whitespace-trimmed form starts with
a hash and whose trimmed content, once the leading hash is removed, ends
in a colon. -/
def headingLine (l : Str) : Bool :=
  (['#'] : Str).isPrefixOf (trimSpace l) &&
    ([':'] : Str).isSuffixOf (trimSpace (trimPre ['#'] (trimSpace l)))

theorem dropWhileGo_hash_of_heading (l : Str)
    (h : (['#'] : Str).isPrefixOf (trimSpace l) = true) :
    ∃ w, l.dropWhile isSpaceGo = '#' :: w := by
  have hpre : (['#'] : Str) <+: trimSpace l := by
    rw [← List.isPrefixOf_iff_prefix]
    exact h
  obtain ⟨v, hv⟩ := hpre
  have hpre2 : trimSpace l <+: trimStart l := by
    rw [trimSpace_eq_trimEnd_trimStart]
    exact trimEnd_prefix _
  obtain ⟨rest, hrest⟩ := hpre2
  refine ⟨v ++ rest, ?_⟩
  have : trimStart l = '#' :: (v ++ rest) := by
    rw [← hrest, ← hv]
    simp
  simpa [trimStart] using this

theorem removeMatches_of_heading (key l : Str)
    (h : (['#'] : Str).isPrefixOf (trimSpace l) = true) :
    removeMatches key l = false := by
  unfold removeMatches
  rw [bindsymStrip_none_of_hash true l (dropWhileGo_hash_of_heading l h)]

theorem commentPat_of_heading (ci : Bool) (key l : Str)
    (h : (['#'] : Str).isPrefixOf (trimSpace l) = true) :
    commentPat ci key l = none := by
  unfold commentPat
  rw [bindsymStrip_none_of_hash ci l (dropWhileGo_hash_of_heading l h)]

theorem count_filter_ge (l : Str) (p : Str → Bool) (hl : p l = true) (L : List Str) :
    L.count l ≤ (L.filter p).count l := by
  induction L with
  | nil => simp
  | cons x r ih =>
    by_cases hx : p x
    · rw [List.filter_cons_of_pos hx]
      simp only [List.count_cons]
      omega
    · rw [List.filter_cons_of_neg hx]
      have hxl : (x == l) = false := by
        rw [beq_eq_false_iff_ne]
        intro hh
        subst hh
        exact hx hl
      simp only [List.count_cons, hxl]
      simp only [if_neg (by simp : ¬(false = true))]
      omega

theorem count_set_ge (l : Str) (L : List Str) (m : Nat) (v : Str)
    (hm : L.getD m [] ≠ l) : L.count l ≤ (L.set m v).count l := by
  induction L generalizing m with
  | nil => simp
  | cons x r ih =>
    rcases m with _ | m'
    · simp only [List.getD_cons_zero] at hm
      rw [List.set_cons_zero]
      simp only [List.count_cons]
      have hxl : (x == l) = false := by rw [beq_eq_false_iff_ne]; exact hm
      simp only [hxl]
      simp only [if_neg (by simp : ¬(false = true))]
      omega
    · simp only [List.getD_cons_succ] at hm
      rw [List.set_cons_succ]
      simp only [List.count_cons]
      have := ih m' hm
      omega

theorem count_insert_ge (l : Str) (L : List Str) (m : Nat) (v : Str) :
    L.count l ≤ (insertLine L m v).count l := by
  unfold insertLine
  conv_lhs => rw [← List.take_append_drop m L]
  simp only [List.count_append, List.count_cons]
  omega

/-- Number of config lines equal to l, for an optional file content. -/
def linesCount (oc : Option Str) (l : Str) : Nat :=
  match oc with
  | some c => (splitNL c).count l
  | none => 0

theorem writeConfig_linesCount (l : Str) (hnl : '\n' ∉ l) (bf wf : Bool) (fs : FS)
    (nl : List Str) (h : linesCount fs.config l ≤ nl.count l) :
    linesCount fs.config l ≤ linesCount (writeConfig bf wf fs nl).1.config l := by
  unfold writeConfig
  cases bf
  · cases wf
    · simp only [if_neg (by simp : ¬(false = true))]
      calc linesCount fs.config l ≤ nl.count l := h
        _ ≤ (splitNL (joinNL nl)).count l := count_le_splitNL_joinNL l hnl nl
        _ = linesCount (some (joinNL nl)) l := rfl
    · simp
  · simp

theorem count_rewriteInline_ge (key text l : Str)
    (hpat : commentPat false key l = none) (L : List Str) :
    L.count l ≤ (rewriteInline key text L).count l := by
  induction L with
  | nil => simp [rewriteInline]
  | cons x r ih =>
    rcases hx : commentPat false key x with _ | m1
    · simp only [rewriteInline, hx]
      simp only [List.count_cons]
      omega
    · simp only [rewriteInline, hx]
      have hxl : (x == l) = false := by
        rw [beq_eq_false_iff_ne]
        intro hh
        subst hh
        rw [hpat] at hx
        exact Option.noConfusion hx
      simp only [List.count_cons, hxl]
      simp only [if_neg (by simp : ¬(false = true))]
      omega

theorem count_commentEdit_ge (key text l : Str) (hhead : headingLine l = true)
    (L : List Str) : L.count l ≤ (commentEdit key text L).count l := by
  simp only [headingLine, Bool.and_eq_true] at hhead
  obtain ⟨hpre, hsuf⟩ := hhead
  rcases hidx : L.findIdx? (fun l' => (commentPat true key l').isSome) with _ | i
  · simp only [commentEdit, hidx]
    exact Nat.le_refl _
  · simp only [commentEdit, hidx]
    by_cases hi0 : i = 0
    · rw [if_pos hi0]
      exact count_insert_ge l L 0 _
    · rw [if_neg hi0]
      by_cases hp : (['#'] : Str).isPrefixOf (trimSpace (L.getD (i - 1) [])) = true
      · rw [if_pos hp]
        by_cases hs : ([':'] : Str).isSuffixOf
            (trimSpace (trimPre ['#'] (trimSpace (L.getD (i - 1) [])))) = true
        · rw [if_pos hs]
          exact count_insert_ge l L i _
        · rw [if_neg hs]
          apply count_set_ge
          intro hh
          rw [hh] at hs
          exact hs hsuf
      · rw [if_neg hp]
        exact count_insert_ge l L i _

/-- Claim C8: a section-heading line (trimmed content starting with a hash
and ending, once the hash is stripped, in a colon) is never mutated or
deleted by any mutator: each of its occurrences among the config lines
survives add, remove, and both revisions of comment, for all arguments
and write-failure outcomes. -/
theorem c8_headings_preserved (c : Str) (bk : Option Str) (key action text : Str)
    (bf wf : Bool) (l : Str) (hl : headingLine l = true) (hnl : '\n' ∉ l) :
    linesCount (some c) l ≤ linesCount (addBinding bf wf ⟨some c, bk⟩ key action).1.config l ∧
    linesCount (some c) l ≤ linesCount (removeBinding bf wf ⟨some c, bk⟩ key).1.config l ∧
    linesCount (some c) l ≤
      linesCount (commentBindingInline bf wf ⟨some c, bk⟩ key text).1.config l ∧
    linesCount (some c) l ≤
      linesCount (commentBindingPrev bf wf ⟨some c, bk⟩ key text).1.config l := by
  have hpre : (['#'] : Str).isPrefixOf (trimSpace l) = true := by
    simp only [headingLine, Bool.and_eq_true] at hl
    exact hl.1
  refine ⟨?_, ?_, ?_, ?_⟩
  · by_cases hany : (parseBindings (splitNL c)).any (fun b => eqFold b.key key) = true
    · simp only [addBinding, hany, if_pos]
      exact Nat.le_refl _
    · simp only [addBinding, if_neg hany]
      exact writeConfig_linesCount l hnl bf wf ⟨some c, bk⟩ _
        (count_insert_ge l (splitNL c) (lastBindsymIdx (splitNL c))
          ("bindsym ".toList ++ key ++ [' '] ++ action))
  · by_cases hany : (parseBindings (splitNL c)).any (fun b => eqFold b.key key) = true
    · simp only [removeBinding, hany, if_pos]
      refine writeConfig_linesCount l hnl bf wf ⟨some c, bk⟩ _ ?_
      exact count_filter_ge l _ (by rw [removeMatches_of_heading key l hpre]; rfl) (splitNL c)
    · simp only [removeBinding, if_neg hany]
      exact Nat.le_refl _
  · by_cases hany : (parseBindings (splitNL c)).any (fun b => eqFold b.key key) = true
    · simp only [commentBindingInline, hany, if_pos]
      exact writeConfig_linesCount l hnl bf wf ⟨some c, bk⟩ _
        (count_rewriteInline_ge key text l (commentPat_of_heading false key l hpre) (splitNL c))
    · simp only [commentBindingInline, if_neg hany]
      exact Nat.le_refl _
  · by_cases hany : (parseBindings (splitNL c)).any (fun b => eqFold b.key key) = true
    · simp only [commentBindingPrev, hany, if_pos]
      exact writeConfig_linesCount l hnl bf wf ⟨some c, bk⟩ _
        (count_commentEdit_ge key text l hl (splitNL c))
    · simp only [commentBindingPrev, if_neg hany]
      exact Nat.le_refl _

/-- Witness for C8 at a concrete input: the heading of the spec's example
file survives an add, a remove, and both comment revisions. -/
theorem c8_witness :
    linesCount (some "# Launchers:\nbindsym mod4+d exec dmenu_run".toList)
        "# Launchers:".toList ≤
      linesCount (addBinding false false
        ⟨some "# Launchers:\nbindsym mod4+d exec dmenu_run".toList, none⟩
        "mod4+d".toList "kill".toList).1.config "# Launchers:".toList ∧
    linesCount (some "# Launchers:\nbindsym mod4+d exec dmenu_run".toList)
        "# Launchers:".toList ≤
      linesCount (removeBinding false false
        ⟨some "# Launchers:\nbindsym mod4+d exec dmenu_run".toList, none⟩
        "mod4+d".toList).1.config "# Launchers:".toList ∧
    linesCount (some "# Launchers:\nbindsym mod4+d exec dmenu_run".toList)
        "# Launchers:".toList ≤
      linesCount (commentBindingInline false false
        ⟨some "# Launchers:\nbindsym mod4+d exec dmenu_run".toList, none⟩
        "mod4+d".toList "x".toList).1.config "# Launchers:".toList ∧
    linesCount (some "# Launchers:\nbindsym mod4+d exec dmenu_run".toList)
        "# Launchers:".toList ≤
      linesCount (commentBindingPrev false false
        ⟨some "# Launchers:\nbindsym mod4+d exec dmenu_run".toList, none⟩
        "mod4+d".toList "x".toList).1.config "# Launchers:".toList :=
  c8_headings_preserved "# Launchers:\nbindsym mod4+d exec dmenu_run".toList none
    "mod4+d".toList "kill".toList "x".toList false false "# Launchers:".toList
    (by decide) (by decide)

theorem containsSub_infix_iff (sub s : Str) : containsSub sub s = true ↔ sub <:+: s := by
  induction s with
  | nil =>
    simp only [containsSub, List.isEmpty_iff, List.infix_nil]
  | cons c t ih =>
    simp only [containsSub, Bool.or_eq_true, List.isPrefixOf_iff_prefix, ih,
      List.infix_cons_iff]

theorem infix_dropWhile_iff (p : Char → Bool) (sub s : Str)
    (h0 : ∀ c, sub.head? = some c → p c = false) (hne : sub ≠ []) :
    sub <:+: s.dropWhile p ↔ sub <:+: s := by
  constructor
  · intro h
    exact h.trans (List.dropWhile_suffix p).isInfix
  · intro h
    induction s with
    | nil => simpa using h
    | cons a t ih =>
      by_cases hp : p a
      · rw [List.dropWhile_cons_of_pos hp]
        apply ih
        rcases List.infix_cons_iff.1 h with hpre | hinf
        · exfalso
          rcases sub with _ | ⟨s0, sr⟩
          · exact hne rfl
          · have : s0 = a := by
              obtain ⟨r, hr⟩ := hpre
              exact (List.cons.injEq _ _ _ _ ▸ hr).1
            have hs0 := h0 s0 rfl
            rw [this, hp] at hs0
            exact Bool.noConfusion hs0
        · exact hinf
      · rwa [List.dropWhile_cons_of_neg hp]

theorem infix_trimSpace_iff (sub s : Str)
    (hh : ∀ c, sub.head? = some c → isSpaceGo c = false)
    (hl : ∀ c, sub.getLast? = some c → isSpaceGo c = false) (hne : sub ≠ []) :
    sub <:+: trimSpace s ↔ sub <:+: s := by
  rw [trimSpace_eq_trimEnd_trimStart]
  have step2 : sub <:+: trimEnd (trimStart s) ↔ sub <:+: trimStart s := by
    unfold trimEnd
    rw [← List.reverse_infix]
    rw [List.reverse_reverse]
    have := infix_dropWhile_iff isSpaceGo sub.reverse (trimStart s).reverse
      (by
        intro c hc
        apply hl
        rwa [← List.head?_reverse]) (by simpa using hne)
    rw [this]
    rw [List.reverse_infix]
  rw [step2]
  exact infix_dropWhile_iff isSpaceGo sub s hh hne

theorem containsSub_trimSpace (sub s : Str)
    (hh : ∀ c, sub.head? = some c → isSpaceGo c = false)
    (hl : ∀ c, sub.getLast? = some c → isSpaceGo c = false) (hne : sub ≠ []) :
    containsSub sub (trimSpace s) = containsSub sub s := by
  rcases hcs : containsSub sub s with _ | _
  · rcases hct : containsSub sub (trimSpace s) with _ | _
    · rfl
    · exfalso
      have := (containsSub_infix_iff sub (trimSpace s)).1 hct
      rw [infix_trimSpace_iff sub s hh hl hne] at this
      rw [(containsSub_infix_iff sub s).2 this] at hcs
      exact Bool.noConfusion hcs
  · rw [(containsSub_infix_iff sub (trimSpace s)).2]
    rw [infix_trimSpace_iff sub s hh hl hne]
    exact (containsSub_infix_iff sub s).1 hcs

theorem getD_mem_of_lt (L : List Str) (n : Nat) (h : n < L.length) : L.getD n [] ∈ L := by
  induction L generalizing n with
  | nil => simp at h
  | cons x r ih =>
    rcases n with _ | n'
    · simp
    · simp only [List.getD_cons_succ]
      exact List.mem_cons_of_mem x (ih n' (by simpa using h))

theorem lastBindsym_none_spec (L : List Str) (h : lastBindsym L = none) :
    ∀ l ∈ L, containsSub ("bindsym".toList) (trimSpace l) = false := by
  induction L with
  | nil => simp
  | cons l rest ih =>
    intro x hx
    rcases hr : lastBindsym rest with _ | j
    · simp only [lastBindsym, hr] at h
      by_cases hc : containsSub ("bindsym".toList) (trimSpace l) = true
      · rw [if_pos hc] at h
        exact Option.noConfusion h
      · rcases List.mem_cons.1 hx with hx | hx
        · subst hx
          simpa using hc
        · exact ih (by rw [hr]) x hx
    · simp only [lastBindsym, hr] at h
      exact Option.noConfusion h

theorem lastBindsym_some_spec (L : List Str) (i : Nat) (h : lastBindsym L = some i) :
    i < L.length ∧ containsSub ("bindsym".toList) (trimSpace (L.getD i [])) = true ∧
      ∀ j, i < j → j < L.length →
        containsSub ("bindsym".toList) (trimSpace (L.getD j [])) = false := by
  induction L generalizing i with
  | nil => exact Option.noConfusion h
  | cons l rest ih =>
    rcases hr : lastBindsym rest with _ | j
    · simp only [lastBindsym, hr] at h
      by_cases hc : containsSub ("bindsym".toList) (trimSpace l) = true
      · rw [if_pos hc] at h
        have hi : i = 0 := by
          injection h with h'
          exact h'.symm
        subst hi
        refine ⟨by simp, by simpa using hc, ?_⟩
        intro j hj hjl
        rcases j with _ | j'
        · omega
        · simp only [List.getD_cons_succ]
          exact lastBindsym_none_spec rest hr _ (getD_mem_of_lt rest j' (by simpa using hjl))
      · rw [if_neg hc] at h
        exact Option.noConfusion h
    · simp only [lastBindsym, hr] at h
      have hi : i = j + 1 := by
        injection h with h'
        exact h'.symm
      subst hi
      obtain ⟨h1, h2, h3⟩ := ih j hr
      refine ⟨by simpa using Nat.succ_lt_succ h1, by simpa using h2, ?_⟩
      intro j2 hj2 hj2l
      rcases j2 with _ | j2'
      · omega
      · simp only [List.getD_cons_succ]
        exact h3 j2' (by omega) (by simpa using hj2l)

theorem bindsym_head_fact : ∀ c, ("bindsym".toList : Str).head? = some c → isSpaceGo c = false := by
  intro c hc
  have : c = 'b' := by
    have h' : some 'b' = some c := hc
    exact (Option.some.injEq _ _ ▸ h').symm ▸ rfl
  rw [this]
  decide

theorem bindsym_last_fact : ∀ c, ("bindsym".toList : Str).getLast? = some c → isSpaceGo c = false := by
  intro c hc
  have h' : some 'm' = some c := hc
  have : c = 'm' := by
    injection h' with h''
    exact h''.symm
  rw [this]
  decide

theorem containsSub_bindsym_trim (s : Str) :
    containsSub ("bindsym".toList) (trimSpace s) = containsSub ("bindsym".toList) s :=
  containsSub_trimSpace ("bindsym".toList) s bindsym_head_fact bindsym_last_fact (by decide)

/-- Claim C4: with no duplicate of the given key, add constructs the line
bindsym-key-action and inserts it at an index j just past the last line
containing the substring bindsym; when no line contains that substring,
j is the number of lines, so the new binding becomes the file's last
line.  The written content is the join of the lines with the new line
inserted at j. -/
theorem c4_add_inserts_after_last_bindsym (c : Str) (bk : Option Str) (key action : Str)
    (hnd : ∀ b ∈ parseBindings (splitNL c), eqFold b.key key = false) :
    ∃ j,
      addBinding false false ⟨some c, bk⟩ key action =
        (⟨some (joinNL ((splitNL c).take j ++ ["bindsym ".toList ++ key ++ [' '] ++ action]
            ++ (splitNL c).drop j)),
          some (joinNL ((splitNL c).take j ++ ["bindsym ".toList ++ key ++ [' '] ++ action]
            ++ (splitNL c).drop j))⟩, .ok ()) ∧
      j ≤ (splitNL c).length ∧
      ((∀ l ∈ splitNL c, containsSub ("bindsym".toList) l = false) →
        j = (splitNL c).length) ∧
      (∀ i, i < (splitNL c).length →
        containsSub ("bindsym".toList) ((splitNL c).getD i []) = true →
        i < j ∧ containsSub ("bindsym".toList) ((splitNL c).getD (j - 1) []) = true) := by
  have hanyf : ((parseBindings (splitNL c)).any (fun b => eqFold b.key key)) = false := by
    rw [List.any_eq_false]
    intro b hb
    rw [hnd b hb]
    simp
  have hany : ¬((parseBindings (splitNL c)).any (fun b => eqFold b.key key) = true) := by
    rw [hanyf]
    simp
  refine ⟨lastBindsymIdx (splitNL c), ?_, ?_, ?_, ?_⟩
  · simp only [addBinding, if_neg hany]
    rfl
  · unfold lastBindsymIdx
    rcases hlb : lastBindsym (splitNL c) with _ | i
    · exact Nat.le_refl _
    · exact (lastBindsym_some_spec _ i hlb).1
  · intro hnone
    unfold lastBindsymIdx
    rcases hlb : lastBindsym (splitNL c) with _ | i
    · rfl
    · exfalso
      obtain ⟨h1, h2, _⟩ := lastBindsym_some_spec _ i hlb
      rw [containsSub_bindsym_trim] at h2
      rw [hnone _ (getD_mem_of_lt _ i h1)] at h2
      exact Bool.noConfusion h2
  · intro i hi hci
    rcases hlb : lastBindsym (splitNL c) with _ | i0
    · exfalso
      have := lastBindsym_none_spec _ hlb ((splitNL c).getD i []) (getD_mem_of_lt _ i hi)
      rw [containsSub_bindsym_trim] at this
      rw [hci] at this
      exact Bool.noConfusion this
    · have hj : lastBindsymIdx (splitNL c) = i0 + 1 := by
        unfold lastBindsymIdx
        rw [hlb]
      obtain ⟨h1, h2, h3⟩ := lastBindsym_some_spec _ i0 hlb
      rw [hj]
      constructor
      · by_contra hcon
        have hge : i0 < i := by omega
        have := h3 i hge hi
        rw [containsSub_bindsym_trim] at this
        rw [hci] at this
        exact Bool.noConfusion this
      · simp only [Nat.add_sub_cancel]
        rw [← containsSub_bindsym_trim ((splitNL c).getD i0 [])]
        exact h2

/-- Witness for C4 at a concrete input: adding mod4+q kill to a file with
no bindsym line appends it as the last line. -/
theorem c4_witness :
    ∃ j,
      addBinding false false ⟨some "# cfg".toList, none⟩ "mod4+q".toList "kill".toList =
        (⟨some (joinNL ((splitNL "# cfg".toList).take j ++
            ["bindsym ".toList ++ "mod4+q".toList ++ [' '] ++ "kill".toList]
            ++ (splitNL "# cfg".toList).drop j)),
          some (joinNL ((splitNL "# cfg".toList).take j ++
            ["bindsym ".toList ++ "mod4+q".toList ++ [' '] ++ "kill".toList]
            ++ (splitNL "# cfg".toList).drop j))⟩, .ok ()) ∧
      j ≤ (splitNL "# cfg".toList).length ∧
      ((∀ l ∈ splitNL "# cfg".toList, containsSub ("bindsym".toList) l = false) →
        j = (splitNL "# cfg".toList).length) ∧
      (∀ i, i < (splitNL "# cfg".toList).length →
        containsSub ("bindsym".toList) ((splitNL "# cfg".toList).getD i []) = true →
        i < j ∧ containsSub ("bindsym".toList)
          ((splitNL "# cfg".toList).getD (j - 1) []) = true) :=
  c4_add_inserts_after_last_bindsym "# cfg".toList none "mod4+q".toList "kill".toList
    (by decide)

/-- Previous-line value seen by the parser for the line that follows the
segment P, when the line before P (if any) is prevOpt. -/
def prevOf (prevOpt : Option Str) (P : List Str) : Option Str :=
  match P.getLast? with
  | some x => some x
  | none => prevOpt

theorem prevOf_nil (prevOpt : Option Str) : prevOf prevOpt [] = prevOpt := rfl

theorem prevOf_cons (prevOpt : Option Str) (l0 : Str) (P : List Str) :
    prevOf prevOpt (l0 :: P) = prevOf (some l0) P := by
  rcases P with _ | ⟨p1, P'⟩
  · rfl
  · unfold prevOf
    rw [List.getLast?_cons_cons]
    rcases hgl : (p1 :: P').getLast? with _ | x
    · exact absurd hgl (by simp)
    · rfl

theorem prevOf_concat (prevOpt : Option Str) (P : List Str) (x : Str) :
    prevOf prevOpt (P ++ [x]) = some x := by
  simp [prevOf, List.getLast?_concat]

theorem mem_parseBindingsGo (L : List Str) (prevOpt : Option Str) (i : Nat) (b : Binding) :
    b ∈ parseBindingsGo prevOpt i L ↔
      ∃ P l Q pl, L = P ++ l :: Q ∧ parseLine l = some pl ∧
        b = mkBinding (prevOf prevOpt P) l (i + P.length) pl := by
  induction L generalizing prevOpt i with
  | nil =>
    simp only [parseBindingsGo, List.not_mem_nil, false_iff]
    rintro ⟨P, l, Q, pl, hL, _, _⟩
    exact absurd hL.symm (by simp)
  | cons l0 rest ih =>
    simp only [parseBindingsGo, List.mem_append]
    constructor
    · rintro (hmem | hmem)
      · rcases hpl0 : parseLine l0 with _ | pl0
        · rw [hpl0] at hmem
          simp at hmem
        · rw [hpl0] at hmem
          simp only [List.mem_singleton] at hmem
          exact ⟨[], l0, rest, pl0, by simp, hpl0, by simpa [prevOf_nil] using hmem⟩
      · obtain ⟨P, l, Q, pl, hL, hpl, hb⟩ := (ih (some l0) (i + 1)).1 hmem
        refine ⟨l0 :: P, l, Q, pl, by simp [hL], hpl, ?_⟩
        rw [hb, prevOf_cons]
        congr 1
        simp only [List.length_cons]
        omega
    · rintro ⟨P, l, Q, pl, hL, hpl, hb⟩
      rcases P with _ | ⟨p0, P'⟩
      · simp only [List.nil_append] at hL
        have hl0 : l0 = l := (List.cons.injEq _ _ _ _ ▸ hL).1
        have hrest : rest = Q := (List.cons.injEq _ _ _ _ ▸ hL).2
        subst hl0
        subst hrest
        left
        rw [hpl]
        simp only [List.mem_singleton]
        rw [hb, prevOf_nil]
        congr 1
      · simp only [List.cons_append] at hL
        have hl0 : l0 = p0 := (List.cons.injEq _ _ _ _ ▸ hL).1
        have hrest : rest = P' ++ l :: Q := (List.cons.injEq _ _ _ _ ▸ hL).2
        subst hl0
        right
        refine (ih (some l0) (i + 1)).2 ⟨P', l, Q, pl, hrest, hpl, ?_⟩
        rw [hb, prevOf_cons]
        congr 1
        simp only [List.length_cons]
        omega

theorem mem_parseBindings (L : List Str) (b : Binding) :
    b ∈ parseBindings L ↔
      ∃ P l Q pl, L = P ++ l :: Q ∧ parseLine l = some pl ∧
        b = mkBinding (prevOf none P) l P.length pl := by
  rw [parseBindings, mem_parseBindingsGo]
  simp

/-- Claim C9: a matched bindsym line with no inline comment inherits from
the immediately preceding line: when that line's trimmed form starts with
a hash, the binding's comment is the trimmed content after the hash unless
that content ends in a colon, in which case the comment is empty. -/
theorem c9_comment_inheritance (P Q : List Str) (prev l : Str) (pl : ParsedLine)
    (hpl : parseLine l = some pl)
    (hno : trimSpace (pl.commentRaw.getD []) = [])
    (hprev : (['#'] : Str).isPrefixOf (trimSpace prev) = true) :
    ∃ b ∈ parseBindings (P ++ prev :: l :: Q),
      b.line = P.length + 2 ∧ b.raw = l ∧ b.key = pl.key ∧
      b.comment = (if ([':'] : Str).isSuffixOf (trimSpace (trimPre ['#'] (trimSpace prev)))
        then [] else trimSpace (trimPre ['#'] (trimSpace prev))) := by
  refine ⟨mkBinding (some prev) l (P.length + 1) pl, ?_, rfl, rfl, rfl, ?_⟩
  · apply (mem_parseBindings _ _).2
    refine ⟨P ++ [prev], l, Q, pl, by simp, hpl, ?_⟩
    rw [prevOf_concat]
    congr 1
    simp
  · simp only [mkBinding]
    rw [hno]
    simp only [List.isEmpty_nil, if_pos]
    unfold inheritedComment
    rw [if_pos hprev]

/-- Witness for C9 at the spec's own examples: an annotation line yields
an inherited comment, a heading line (colon suffix) does not. -/
theorem c9_witness :
    (∃ b ∈ parseBindings (([] : List Str) ++
        "# open terminal".toList :: "bindsym mod4+Return exec alacritty".toList :: []),
      b.line = ([] : List Str).length + 2 ∧
      b.raw = "bindsym mod4+Return exec alacritty".toList ∧
      b.key = (ParsedLine.mk "mod4+Return".toList "exec alacritty".toList none).key ∧
      b.comment = (if ([':'] : Str).isSuffixOf
          (trimSpace (trimPre ['#'] (trimSpace "# open terminal".toList)))
        then [] else trimSpace (trimPre ['#'] (trimSpace "# open terminal".toList)))) ∧
    (∃ b ∈ parseBindings (([] : List Str) ++
        "# Launchers:".toList :: "bindsym mod4+d exec dmenu_run".toList :: []),
      b.line = ([] : List Str).length + 2 ∧
      b.raw = "bindsym mod4+d exec dmenu_run".toList ∧
      b.key = (ParsedLine.mk "mod4+d".toList "exec dmenu_run".toList none).key ∧
      b.comment = (if ([':'] : Str).isSuffixOf
          (trimSpace (trimPre ['#'] (trimSpace "# Launchers:".toList)))
        then [] else trimSpace (trimPre ['#'] (trimSpace "# Launchers:".toList)))) :=
  ⟨c9_comment_inheritance [] [] "# open terminal".toList
      "bindsym mod4+Return exec alacritty".toList
      (ParsedLine.mk "mod4+Return".toList "exec alacritty".toList none)
      (by decide) (by decide) (by decide),
    c9_comment_inheritance [] [] "# Launchers:".toList
      "bindsym mod4+d exec dmenu_run".toList
      (ParsedLine.mk "mod4+d".toList "exec dmenu_run".toList none)
      (by decide) (by decide) (by decide)⟩

theorem fbGo_eq_some (k : Nat) (s : Str) (a0 : Nat)
    (hk : ((s.drop k).dropWhile isSpaceRe).head? = some '#')
    (hmin : ∀ k', k' < k → ((s.drop k').dropWhile isSpaceRe).head? ≠ some '#') :
    fbGo s a0 = some (a0 + k) := by
  induction k generalizing s a0 with
  | zero =>
    rcases s with _ | ⟨c, t⟩
    · simp at hk
    · simp only [List.drop_zero] at hk
      simp [fbGo, hk]
  | succ k' ih =>
    rcases s with _ | ⟨c, t⟩
    · simp at hk
    · have h0 : ((c :: t).dropWhile isSpaceRe).head? ≠ some '#' := by
        have := hmin 0 (Nat.succ_pos k')
        simpa using this
      have hstep : fbGo (c :: t) a0 = fbGo t (a0 + 1) := by
        simp only [fbGo]
        rw [if_neg h0]
      rw [hstep]
      have hres := ih t (a0 + 1) (by simpa using hk)
        (fun k'' hk'' => by
          have := hmin (k'' + 1) (by omega)
          simpa using this)
      rw [hres]
      congr 1
      omega

theorem firstHashBoundary_eq_some (A : Str) (a : Nat) (h1 : 1 ≤ a)
    (hb : ((A.drop a).dropWhile isSpaceRe).head? = some '#')
    (hmin : ∀ a', 1 ≤ a' → a' < a → ((A.drop a').dropWhile isSpaceRe).head? ≠ some '#') :
    firstHashBoundary A = some a := by
  rcases A with _ | ⟨c, rest⟩
  · simp at hb
  · simp only [firstHashBoundary]
    have hk : ((rest.drop (a - 1)).dropWhile isSpaceRe).head? = some '#' := by
      have heq : rest.drop (a - 1) = (c :: rest).drop a := by
        rcases a with _ | a'
        · omega
        · simp
      rw [heq]
      exact hb
    have hres := fbGo_eq_some (a - 1) rest 1 hk
      (fun k' hk' => by
        have heq : rest.drop k' = (c :: rest).drop (k' + 1) := by simp
        rw [heq]
        exact hmin (k' + 1) (by omega) (by omega))
    rw [hres]
    congr 1
    omega

theorem takeWhile_append_stop (p : Char → Bool) (xs : Str) (y : Char) (ys : Str)
    (hxs : ∀ x ∈ xs, p x = true) (hy : p y = false) :
    (xs ++ y :: ys).takeWhile p = xs := by
  induction xs with
  | nil => simp [List.takeWhile_cons, hy]
  | cons x t ih =>
    have hx : p x = true := hxs x (by simp)
    have ht := ih (fun x' hx' => hxs x' (List.mem_cons_of_mem _ hx'))
    simp [List.takeWhile_cons, hx, ht]

theorem dropWhile_append_stop (p : Char → Bool) (xs : Str) (y : Char) (ys : Str)
    (hxs : ∀ x ∈ xs, p x = true) (hy : p y = false) :
    (xs ++ y :: ys).dropWhile p = y :: ys := by
  induction xs with
  | nil => simp [List.dropWhile_cons, hy]
  | cons x t ih =>
    have hx : p x = true := hxs x (by simp)
    have ht := ih (fun x' hx' => hxs x' (List.mem_cons_of_mem _ hx'))
    simp [List.dropWhile_cons, hx, ht]

/-- Claim C10 (amended): when the remainder after the key reaches a hash,
the parser's action capture is everything before the first comment
boundary and the comment capture everything after it; a is that first
boundary (least position from which only whitespace precedes a hash). -/
theorem c10_first_boundary (key A : Str) (a : Nat)
    (hkey : key ≠ []) (hkeyws : ∀ ch ∈ key, isSpaceRe ch = false)
    (hA : ∀ c0, A.head? = some c0 → isSpaceRe c0 = false) (hAne : A ≠ [])
    (h1 : 1 ≤ a) (hb : ((A.drop a).dropWhile isSpaceRe).head? = some '#')
    (hmin : ∀ a', 1 ≤ a' → a' < a → ((A.drop a').dropWhile isSpaceRe).head? ≠ some '#') :
    parseLine ("bindsym ".toList ++ key ++ [' '] ++ A) =
      some ⟨key, A.take a, some (hashTail (A.drop a))⟩ := by
  have hl : ("bindsym ".toList ++ key ++ [' '] ++ A : Str) =
      "bindsym".toList ++ (' ' :: (key ++ ' ' :: A)) := by
    simp
  have e1 : ("bindsym ".toList ++ key ++ [' '] ++ A : Str).dropWhile isSpaceRe =
      "bindsym ".toList ++ key ++ [' '] ++ A := by
    exact List.dropWhile_cons_of_neg (by decide)
  have e2 : ("bindsym".toList).isPrefixOf ("bindsym ".toList ++ key ++ [' '] ++ A) = true := by
    rw [List.isPrefixOf_iff_prefix, hl]
    exact List.prefix_append _ _
  have e3 : ("bindsym ".toList ++ key ++ [' '] ++ A : Str).drop 7 =
      ' ' :: (key ++ ' ' :: A) := by
    rw [hl]
    have h7 : (7 : Nat) = ("bindsym".toList : Str).length := by decide
    rw [h7, List.drop_left]
  obtain ⟨k0, kr, hk⟩ : ∃ k0 kr, key = k0 :: kr := by
    rcases key with _ | ⟨k0, kr⟩
    · exact absurd rfl hkey
    · exact ⟨k0, kr, rfl⟩
  have hk0 : isSpaceRe k0 = false := hkeyws k0 (by rw [hk]; simp)
  have e4 : (' ' :: (key ++ ' ' :: A) : Str).dropWhile isSpaceRe = key ++ ' ' :: A := by
    rw [List.dropWhile_cons_of_pos (by decide)]
    rw [hk]
    exact List.dropWhile_cons_of_neg (by simp [hk0])
  have e5 : ((key ++ ' ' :: A : Str)).takeWhile (fun ch => !isSpaceRe ch) = key :=
    takeWhile_append_stop _ key ' ' A (fun x hx => by simp [hkeyws x hx]) (by decide)
  have e6 : ((key ++ ' ' :: A : Str)).dropWhile (fun ch => !isSpaceRe ch) = ' ' :: A :=
    dropWhile_append_stop _ key ' ' A (fun x hx => by simp [hkeyws x hx]) (by decide)
  have e7 : key.isEmpty = false := by
    rw [hk]
    rfl
  obtain ⟨a0, A', hA0⟩ : ∃ a0 A', A = a0 :: A' := by
    rcases A with _ | ⟨a0, A'⟩
    · exact absurd rfl hAne
    · exact ⟨a0, A', rfl⟩
  have ha0 : isSpaceRe a0 = false := hA a0 (by rw [hA0]; rfl)
  have e8 : (' ' :: A : Str).dropWhile isSpaceRe = A := by
    rw [List.dropWhile_cons_of_pos (by decide), hA0]
    exact List.dropWhile_cons_of_neg (by simp [ha0])
  have e9 : A.isEmpty = false := by
    rw [hA0]
    rfl
  have e10 : splitAC A = (A.take a, some (hashTail (A.drop a))) := by
    unfold splitAC
    rw [firstHashBoundary_eq_some A a h1 hb hmin]
  have e11 : isSpaceRe ' ' = true := by decide
  simp only [parseLine, e1, e2, e3, eq_self_iff_true, if_true]
  simp only [e11, eq_self_iff_true, if_true, e4, e5, e6, e7, e8, e9, e10,
    Bool.false_eq_true, if_false]

/-- Witness for the amended C10 at the counterexample line: the boundary
is at position 1 of the remainder b-space-hash-c-space-hash-d, so the
action is b and the comment is everything after the first hash. -/
theorem c10_first_boundary_witness :
    parseLine ("bindsym ".toList ++ "a".toList ++ [' '] ++ "b # c # d".toList) =
      some ⟨"a".toList, ("b # c # d".toList : Str).take 1,
        some (hashTail (("b # c # d".toList : Str).drop 1))⟩ :=
  c10_first_boundary "a".toList "b # c # d".toList 1 (by decide) (by decide)
    (by decide) (by decide) (by decide) (by decide)
    (by intro a' ha1 ha2; omega)

theorem orElse_isSome (a : Option Str) (f : Unit → Option Str) :
    (a.orElse f).isSome = (a.isSome || (f ()).isSome) := by
  rcases a with _ | x
  · simp [Option.orElse]
  · simp [Option.orElse]

theorem litStrip_append_self (ci : Bool) (pat r : Str) :
    litStrip ci pat (pat ++ r) = some r := by
  induction pat with
  | nil => rfl
  | cons p ps ih =>
    simp only [List.cons_append, litStrip]
    rw [if_pos (by cases ci <;> simp)]
    exact ih

theorem eqFold_lists (K key : Str) (h : eqFold K key = true) :
    K.map foldChar = key.map foldChar := by
  simpa [eqFold] using h

theorem litStrip_of_eqFold (K key r : Str) (h : eqFold K key = true) :
    litStrip true key (K ++ r) = some r := by
  have hm := eqFold_lists K key h
  induction key generalizing K with
  | nil =>
    have : K = [] := by simpa using hm
    rw [this]
    rfl
  | cons p ps ih =>
    rcases K with _ | ⟨k0, ks⟩
    · exact absurd hm (by simp)
    · simp only [List.map_cons, List.cons.injEq] at hm
      simp only [List.cons_append, litStrip]
      rw [if_pos (by simp [hm.1.symm])]
      exact ih ks (by simp [eqFold, hm.2]) hm.2

theorem cpGo_isSome_of_reach (ci : Bool) (key : Str) (W rest : Str)
    (hW : ∀ w ∈ W, isSpaceRe w = true)
    (h : (Option.bind (litStrip ci key rest) tailCapture).isSome = true) :
    (cpGo ci key (W ++ rest)).isSome = true := by
  induction W with
  | nil =>
    rcases rest with _ | ⟨c, t⟩
    · simpa [cpGo] using h
    · simp only [List.nil_append, cpGo, orElse_isSome]
      rw [h]
      simp
  | cons w W' ih =>
    have hw : isSpaceRe w = true := hW w (by simp)
    simp only [List.cons_append, cpGo, orElse_isSome]
    rw [if_pos hw]
    have hih : (cpGo ci key (W'.append rest)).isSome = true :=
      ih (fun z hz => hW z (List.mem_cons_of_mem _ hz))
    rw [hih]
    simp

theorem head_of_dropWhile_not (p : Char → Bool) (s : Str) (y : Char)
    (h : (s.dropWhile p).head? = some y) : p y = false := by
  induction s with
  | nil => simp at h
  | cons c t ih =>
    by_cases hc : p c
    · rw [List.dropWhile_cons_of_pos hc] at h
      exact ih h
    · rw [List.dropWhile_cons_of_neg hc] at h
      have : c = y := by
        simp only [List.head?_cons, Option.some.injEq] at h
        exact h
      rw [← this]
      simpa using hc

theorem mem_of_head? (s : Str) (y : Char) (h : s.head? = some y) : y ∈ s := by
  rcases s with _ | ⟨c, t⟩
  · simp at h
  · simp only [List.head?_cons, Option.some.injEq] at h
    rw [← h]
    simp

theorem fbGo_some_hash_mem (s : Str) (a0 j : Nat) (h : fbGo s a0 = some j) : '#' ∈ s := by
  induction s generalizing a0 with
  | nil => exact Option.noConfusion h
  | cons c t ih =>
    by_cases hc : ((c :: t).dropWhile isSpaceRe).head? = some '#'
    · have := mem_of_head? _ _ hc
      exact (List.dropWhile_sublist isSpaceRe).subset this
    · simp only [fbGo] at h
      rw [if_neg hc] at h
      exact List.mem_cons_of_mem c (ih (a0 + 1) h)

theorem firstHashBoundary_some_hash_mem (A : Str) (j : Nat)
    (h : firstHashBoundary A = some j) : '#' ∈ A := by
  rcases A with _ | ⟨c, rest⟩
  · exact Option.noConfusion h
  · simp only [firstHashBoundary] at h
    exact List.mem_cons_of_mem c (fbGo_some_hash_mem rest 1 j h)

theorem tailCapture_isSome_cases (r3 : Str)
    (hh : ∀ y, r3.head? = some y → isSpaceRe y = true)
    (hcase : ((r3.dropWhile isSpaceRe).isEmpty = true ∧ 2 ≤ r3.length) ∨
      (r3.dropWhile isSpaceRe).isEmpty = false) :
    (tailCapture r3).isSome = true := by
  rcases r3 with _ | ⟨y, t'⟩
  · rcases hcase with ⟨_, h2⟩ | h1
    · simp at h2
    · simp at h1
  · have hy := hh y rfl
    simp only [tailCapture]
    rw [if_pos hy]
    rcases hcase with ⟨h1, h2⟩ | h1
    · rw [if_pos h1, if_pos h2]
      rfl
    · rw [if_neg (by simp [h1])]
      rfl

theorem head_ws_of_dropWhile_nonspace (r2 : Str) (y : Char)
    (hy : ((r2.dropWhile (fun ch => !isSpaceRe ch)).head? = some y)) :
    isSpaceRe y = true := by
  have := head_of_dropWhile_not _ _ _ hy
  simpa using this

theorem prefix_bindsym_decomp (s : Str)
    (hpre : ("bindsym".toList).isPrefixOf s = true) :
    s = "bindsym".toList ++ s.drop 7 := by
  obtain ⟨r, hr⟩ := (List.isPrefixOf_iff_prefix).1 hpre
  have hdrop : (("bindsym".toList ++ r : Str)).drop 7 = r := by
    rw [show (7 : Nat) = ("bindsym".toList : Str).length from rfl, List.drop_left]
  rw [← hr, hdrop]

theorem commentRaw_none_of_no_hash (l : Str) (pl : ParsedLine)
    (h : parseLine l = some pl) (hn : '#' ∉ l) : pl.commentRaw = none := by
  simp only [parseLine] at h
  split at h
  next hpre =>
    split at h
    next hd => exact Option.noConfusion h
    next c t hd =>
      split at h
      next hws =>
        split at h
        next hke => exact Option.noConfusion h
        next hke =>
          split at h
          next hae =>
            split at h
            next hlen =>
              injection h with h'
              rw [← h']
            next hlen => exact Option.noConfusion h
          next hae =>
            injection h with h'
            rw [← h']
            show (splitAC _).2 = none
            rcases hfb : firstHashBoundary (((((c :: t)).dropWhile
                isSpaceRe).dropWhile (fun ch => !isSpaceRe ch)).dropWhile isSpaceRe)
              with _ | j
            · simp [splitAC, hfb]
            · exfalso
              apply hn
              have hmem := firstHashBoundary_some_hash_mem _ _ hfb
              have hsub : ((((c :: t)).dropWhile isSpaceRe).dropWhile
                  (fun ch => !isSpaceRe ch)).dropWhile isSpaceRe <:+ l := by
                have s1 : ((((c :: t)).dropWhile isSpaceRe).dropWhile
                    (fun ch => !isSpaceRe ch)).dropWhile isSpaceRe <:+
                    (((c :: t)).dropWhile isSpaceRe).dropWhile
                      (fun ch => !isSpaceRe ch) := List.dropWhile_suffix _
                have s2 : (((c :: t)).dropWhile isSpaceRe).dropWhile
                    (fun ch => !isSpaceRe ch) <:+ ((c :: t)).dropWhile isSpaceRe :=
                  List.dropWhile_suffix _
                have s3 : ((c :: t) : Str).dropWhile isSpaceRe <:+ (c :: t) :=
                  List.dropWhile_suffix _
                have s4 : ((c :: t) : Str) <:+ l.dropWhile isSpaceRe := by
                  rw [← hd]
                  exact List.drop_suffix 7 _
                have s5 : l.dropWhile isSpaceRe <:+ l := List.dropWhile_suffix _
                exact s1.trans (s2.trans (s3.trans (s4.trans s5)))
              exact hsub.subset hmem
      next hws => exact Option.noConfusion h
  next hpre => exact Option.noConfusion h

theorem commentPat_construct (key l : Str) (c : Char) (t : Str)
    (hlit : litStrip true ("bindsym".toList) (l.dropWhile isSpaceRe) = some (c :: t))
    (hws : isSpaceRe c = true)
    (he : eqFold ((t.dropWhile isSpaceRe).takeWhile (fun ch => !isSpaceRe ch)) key = true)
    (hcase : ((((t.dropWhile isSpaceRe).dropWhile
          (fun ch => !isSpaceRe ch)).dropWhile isSpaceRe).isEmpty = true ∧
        2 ≤ ((t.dropWhile isSpaceRe).dropWhile (fun ch => !isSpaceRe ch)).length) ∨
      (((t.dropWhile isSpaceRe).dropWhile
          (fun ch => !isSpaceRe ch)).dropWhile isSpaceRe).isEmpty = false) :
    (commentPat true key l).isSome = true := by
  simp only [commentPat, hlit]
  rw [if_pos hws]
  conv_lhs =>
    rw [← List.takeWhile_append_dropWhile (p := isSpaceRe) (l := t)]
  apply cpGo_isSome_of_reach
  · intro w hw
    exact List.mem_takeWhile_imp hw
  · conv_lhs =>
      rw [← List.takeWhile_append_dropWhile
        (p := fun ch => !isSpaceRe ch) (l := t.dropWhile isSpaceRe)]
    rw [litStrip_of_eqFold _ key _ he]
    simp only [Option.bind]
    apply tailCapture_isSome_cases
    · intro y hy
      exact head_ws_of_dropWhile_nonspace _ y hy
    · exact hcase

theorem commentPat_isSome_of_parse (key l : Str) (pl : ParsedLine)
    (h : parseLine l = some pl) (he : eqFold pl.key key = true) :
    (commentPat true key l).isSome = true := by
  simp only [parseLine] at h
  split at h
  next hpre =>
    have hs1 := prefix_bindsym_decomp _ hpre
    split at h
    next hd => exact Option.noConfusion h
    next c t hd =>
      have hlit : litStrip true ("bindsym".toList) (l.dropWhile isSpaceRe) =
          some (c :: t) := by
        rw [hs1, hd]
        exact litStrip_append_self true _ _
      split at h
      next hws =>
        have hr2 : ((c :: t) : Str).dropWhile isSpaceRe = t.dropWhile isSpaceRe :=
          List.dropWhile_cons_of_pos hws
        split at h
        next hke => exact Option.noConfusion h
        next hke =>
          split at h
          next hae =>
            split at h
            next hlen =>
              injection h with h'
              have he' : eqFold ((((c :: t) : Str).dropWhile
                  isSpaceRe).takeWhile (fun ch => !isSpaceRe ch)) key = true := by
                rw [← h'] at he
                exact he
              rw [hr2] at he'
              rw [hr2] at hae hlen
              exact commentPat_construct key l c t hlit hws he' (Or.inl ⟨hae, hlen⟩)
            next hlen => exact Option.noConfusion h
          next hae =>
            injection h with h'
            have he' : eqFold ((((c :: t) : Str).dropWhile
                isSpaceRe).takeWhile (fun ch => !isSpaceRe ch)) key = true := by
              rw [← h'] at he
              exact he
            rw [hr2] at he'
            rw [hr2] at hae
            exact commentPat_construct key l c t hlit hws he'
              (Or.inr (by simpa using hae))
      next hws => exact Option.noConfusion h
  next hpre => exact Option.noConfusion h

theorem countP_one_decomp (p : Str → Bool) (L : List Str) (h : L.countP p = 1) :
    ∃ A x B, L = A ++ x :: B ∧ p x = true ∧
      (∀ z ∈ A, p z = false) ∧ (∀ z ∈ B, p z = false) := by
  induction L with
  | nil => simp [List.countP_nil] at h
  | cons l0 rest ih =>
    by_cases hl0 : p l0 = true
    · refine ⟨[], l0, rest, by simp, hl0, by simp, ?_⟩
      intro z hz
      have hc : rest.countP p = 0 := by
        rw [List.countP_cons_of_pos _ _ hl0] at h
        omega
      rw [List.countP_eq_zero] at hc
      simpa using hc z hz
    · have hl0' : p l0 = false := by simpa using hl0
      rw [List.countP_cons_of_neg _ _ (by simp [hl0'])] at h
      obtain ⟨A, x, B, hL, hx, hA, hB⟩ := ih h
      exact ⟨l0 :: A, x, B, by simp [hL], hx, by
        intro z hz
        rcases List.mem_cons.1 hz with hz | hz
        · rw [hz]; exact hl0'
        · exact hA z hz, hB⟩

theorem decomp_unique (p : Str → Bool) (Y : List Str) (y : Str) (R : List Str)
    (hY : ∀ z ∈ Y, p z = false) (hR : ∀ z ∈ R, p z = false) :
    ∀ P l Q, P ++ l :: Q = Y ++ y :: R → p l = true → P = Y ∧ l = y ∧ Q = R := by
  induction Y with
  | nil =>
    intro P l Q hL hl
    rcases P with _ | ⟨p0, P'⟩
    · simp only [List.nil_append] at hL
      exact ⟨rfl, (List.cons.injEq _ _ _ _ ▸ hL).1, (List.cons.injEq _ _ _ _ ▸ hL).2⟩
    · simp only [List.cons_append, List.nil_append] at hL
      have h2 : P' ++ l :: Q = R := (List.cons.injEq _ _ _ _ ▸ hL).2
      have : l ∈ R := by
        rw [← h2]
        simp
      rw [hR l this] at hl
      exact Bool.noConfusion hl
  | cons y0 Y' ih =>
    intro P l Q hL hl
    rcases P with _ | ⟨p0, P'⟩
    · simp only [List.nil_append, List.cons_append] at hL
      have h1 : l = y0 := (List.cons.injEq _ _ _ _ ▸ hL).1
      exfalso
      have hy0 : p y0 = false := hY y0 (by simp)
      rw [h1, hy0] at hl
      exact Bool.noConfusion hl
    · simp only [List.cons_append] at hL
      have h1 : p0 = y0 := (List.cons.injEq _ _ _ _ ▸ hL).1
      have h2 : P' ++ l :: Q = Y' ++ y :: R := (List.cons.injEq _ _ _ _ ▸ hL).2
      obtain ⟨hP, hly, hQ⟩ := ih (fun z hz => hY z (List.mem_cons_of_mem _ hz)) P' l Q h2 hl
      exact ⟨by rw [hP, h1], hly, hQ⟩

theorem findIdx?_decomp (p : Str → Bool) (A : List Str) (x : Str) (B : List Str)
    (hA : ∀ z ∈ A, p z = false) (hx : p x = true) :
    (A ++ x :: B).findIdx? p = some A.length := by
  induction A with
  | nil => simp [List.findIdx?_cons, hx]
  | cons a0 A' ih =>
    have ha0 : p a0 = false := hA a0 (by simp)
    simp only [List.cons_append, List.findIdx?_cons, ha0, Bool.false_eq_true, if_false]
    rw [List.findIdx?_succ]
    rw [ih (fun z hz => hA z (List.mem_cons_of_mem _ hz))]
    simp

theorem getD_append_len (P : List Str) (y : Str) (R : List Str) :
    (P ++ y :: R).getD P.length [] = y := by
  induction P with
  | nil => simp
  | cons p0 P' ih => simpa using ih

theorem set_append_len (P : List Str) (y v : Str) (R : List Str) :
    (P ++ y :: R).set P.length v = P ++ v :: R := by
  induction P with
  | nil => simp
  | cons p0 P' ih => simpa using ih

theorem insertLine_append (A : List Str) (x : Str) (B : List Str) (v : Str) :
    insertLine (A ++ x :: B) A.length v = A ++ v :: x :: B := by
  unfold insertLine
  rw [List.take_left, List.drop_left]
  simp

theorem commentEdit_forms (key text : Str) (A : List Str) (x : Str) (B : List Str)
    (hA : ∀ z ∈ A, (commentPat true key z).isSome = false)
    (hx : (commentPat true key x).isSome = true) :
    ∃ A', commentEdit key text (A ++ x :: B) = A' ++ ("# ".toList ++ text) :: x :: B ∧
      (∀ z ∈ A', (commentPat true key z).isSome = false) ∧
      (A' = A ∨ ∃ p0, A = A' ++ [p0]) := by
  have hidx : (A ++ x :: B).findIdx? (fun l => (commentPat true key l).isSome) =
      some A.length := findIdx?_decomp _ A x B hA hx
  simp only [commentEdit, hidx]
  rcases List.eq_nil_or_concat A with hAnil | ⟨A0, p0, hAc⟩
  · subst hAnil
    simp only [List.length_nil, if_pos rfl, List.nil_append]
    refine ⟨[], ?_, by simp, Or.inl rfl⟩
    have := insertLine_append ([] : List Str) x B ("# ".toList ++ text)
    simpa using this
  · subst hAc
    simp only [List.concat_eq_append] at hA hidx ⊢
    have hlen : (A0 ++ [p0]).length = A0.length + 1 := by simp
    have hne0 : ¬((A0 ++ [p0]).length = 0) := by simp [hlen]
    rw [if_neg hne0]
    have hassoc : (A0 ++ [p0]) ++ x :: B = A0 ++ p0 :: (x :: B) := by simp
    have hgd : ((A0 ++ [p0]) ++ x :: B).getD ((A0 ++ [p0]).length - 1) [] = p0 := by
      rw [hassoc, hlen]
      simpa using getD_append_len A0 p0 (x :: B)
    rw [hgd]
    by_cases hp : (['#'] : Str).isPrefixOf (trimSpace p0) = true
    · rw [if_pos hp]
      by_cases hs : ([':'] : Str).isSuffixOf (trimSpace (trimPre ['#'] (trimSpace p0))) = true
      · rw [if_pos hs]
        refine ⟨A0 ++ [p0], ?_, hA, Or.inl rfl⟩
        rw [insertLine_append (A0 ++ [p0]) x B ("# ".toList ++ text)]
      · rw [if_neg hs]
        refine ⟨A0, ?_, ?_, Or.inr ⟨p0, rfl⟩⟩
        · rw [hassoc, hlen]
          simpa using set_append_len A0 p0 ("# ".toList ++ text) (x :: B)
        · intro z hz
          exact hA z (by simp [hz])
    · rw [if_neg hp]
      refine ⟨A0 ++ [p0], ?_, hA, Or.inl rfl⟩
      rw [insertLine_append (A0 ++ [p0]) x B ("# ".toList ++ text)]

theorem nc_starts_hash (t : Str) :
    (['#'] : Str).isPrefixOf (trimSpace ("# ".toList ++ t)) = true := by
  have he : ("# ".toList ++ t : Str) = '#' :: (' ' :: t) := rfl
  rw [he, trimSpace_hash_cons]
  simp [List.isPrefixOf]

theorem commentPat_nc (ci : Bool) (key t : Str) :
    commentPat ci key ("# ".toList ++ t) = none :=
  commentPat_of_heading ci key _ (nc_starts_hash t)

theorem inheritedComment_nc (t : Str) (htt : trimSpace t = t)
    (htc : ([':'] : Str).isSuffixOf t = false) :
    inheritedComment ("# ".toList ++ t) = t := by
  unfold inheritedComment
  have he : ("# ".toList ++ t : Str) = '#' :: ' ' :: t := rfl
  rw [he, trimSpace_hash_cons]
  rw [if_pos (by simp [List.isPrefixOf])]
  have htp : trimPre ['#'] ('#' :: trimEnd (' ' :: t)) = trimEnd (' ' :: t) := by
    unfold trimPre
    rw [if_pos (by simp [List.isPrefixOf])]
    simp
  rw [htp, trimSpace_trimEnd, trimSpace_cons_of_ws ' ' t (by decide), htt]
  rw [if_neg (by simp [htc])]

theorem mkBinding_comment_nc (x : Str) (i : Nat) (pl : ParsedLine)
    (hcr : pl.commentRaw = none) (t : Str) (htt : trimSpace t = t)
    (htc : ([':'] : Str).isSuffixOf t = false) :
    (mkBinding (some ("# ".toList ++ t)) x i pl).comment = t := by
  simp only [mkBinding, hcr]
  have h0 : trimSpace ((none : Option Str).getD []) = [] := rfl
  rw [h0]
  simp only [List.isEmpty_nil, if_pos]
  exact inheritedComment_nc t htt htc

theorem mkBinding_key (prevOpt : Option Str) (l : Str) (i : Nat) (pl : ParsedLine) :
    (mkBinding prevOpt l i pl).key = pl.key := rfl

theorem commentEdit_twice (key t1 t2 : Str) (A B : List Str) (x : Str)
    (hAfree : ∀ z ∈ A, (commentPat true key z).isSome = false)
    (hBfree : ∀ z ∈ B, (commentPat true key z).isSome = false)
    (hpatx : (commentPat true key x).isSome = true) :
    ∃ A2, commentEdit key t2 (commentEdit key t1 (A ++ x :: B)) =
        A2 ++ ("# ".toList ++ t2) :: x :: B ∧
      (∀ z ∈ A2, (commentPat true key z).isSome = false) ∧
      (∀ z ∈ A2, z ∈ A ∨ z = "# ".toList ++ t1) := by
  obtain ⟨A1, hE1, hA1free, hA1cases⟩ := commentEdit_forms key t1 A x B hAfree hpatx
  have hA1sub : ∀ z ∈ A1, z ∈ A := by
    rcases hA1cases with h | ⟨p0, h⟩
    · intro z hz
      rw [← h]
      exact hz
    · intro z hz
      rw [h]
      simp [hz]
  have hE1' : commentEdit key t1 (A ++ x :: B) = (A1 ++ ["# ".toList ++ t1]) ++ x :: B := by
    rw [hE1]
    simp
  have hfree1 : ∀ z ∈ A1 ++ ["# ".toList ++ t1], (commentPat true key z).isSome = false := by
    intro z hz
    rcases List.mem_append.1 hz with hz | hz
    · exact hA1free z hz
    · rw [List.mem_singleton.1 hz]
      rw [commentPat_nc]
      rfl
  obtain ⟨A2, hE2, hA2free, hA2cases⟩ :=
    commentEdit_forms key t2 (A1 ++ ["# ".toList ++ t1]) x B hfree1 hpatx
  refine ⟨A2, ?_, hA2free, ?_⟩
  · rw [hE1', hE2]
  · have hA2sub : ∀ z ∈ A2, z ∈ A1 ++ ["# ".toList ++ t1] := by
      rcases hA2cases with h | ⟨p0, h⟩
      · intro z hz
        rw [← h]
        exact hz
      · intro z hz
        rw [h]
        simp [hz]
    intro z hz
    rcases List.mem_append.1 (hA2sub z hz) with hz' | hz'
    · exact Or.inl (hA1sub z hz')
    · exact Or.inr (List.mem_singleton.1 hz')

theorem noNL_nc (t : Str) (ht : '\n' ∉ t) : '\n' ∉ ("# ".toList ++ t : Str) := by
  intro hmem
  rcases List.mem_append.1 hmem with h | h
  · revert h
    decide
  · exact ht h

theorem commentBindingPrev_ok (bk : Option Str) (c key t : Str)
    (hany : (parseBindings (splitNL c)).any (fun b => eqFold b.key key) = true) :
    commentBindingPrev false false ⟨some c, bk⟩ key t =
      (⟨some (joinNL (commentEdit key t (splitNL c))),
        some (joinNL (commentEdit key t (splitNL c)))⟩, .ok ()) := by
  simp only [commentBindingPrev]
  rw [if_pos hany]
  rfl

/-- Claim C7 (amended): on a config whose locating pattern for the key
matches exactly one line, that line carrying no hash, and with
newline-free comment texts whose second is trimmed and not
colon-terminated, applying the preceding-line comment operation twice
leaves a file in which every binding of that key carries exactly the
adopted comment t2. -/
theorem c7_comment_twice_amended (c : Str) (bk : Option Str) (key t1 t2 : Str)
    (hcount : (splitNL c).countP (fun l => (commentPat true key l).isSome) = 1)
    (hnh : ∀ l ∈ splitNL c, (commentPat true key l).isSome = true → '#' ∉ l)
    (hfound : ∃ b ∈ parseBindings (splitNL c), eqFold b.key key = true)
    (ht1 : '\n' ∉ t1) (ht2 : '\n' ∉ t2)
    (ht2t : trimSpace t2 = t2) (ht2c : ([':'] : Str).isSuffixOf t2 = false) :
    ∃ c2,
      commentBindingPrev false false
          (commentBindingPrev false false ⟨some c, bk⟩ key t1).1 key t2 =
        (⟨some c2, some c2⟩, .ok ()) ∧
      (∃ b ∈ parseBindings (splitNL c2), eqFold b.key key = true) ∧
      (∀ b ∈ parseBindings (splitNL c2), eqFold b.key key = true →
        b.comment = t2) := by
  obtain ⟨A, x, B, hLd, hpatx, hAfree, hBfree⟩ := countP_one_decomp _ _ hcount
  obtain ⟨b0, hb0mem, hb0key⟩ := hfound
  obtain ⟨P, lx, Q, pl0, hPQ, hplx, hb0⟩ := (mem_parseBindings _ _).1 hb0mem
  have hb0key' : eqFold pl0.key key = true := by
    rw [hb0] at hb0key
    exact hb0key
  have hpat_lx : (commentPat true key lx).isSome = true :=
    commentPat_isSome_of_parse key lx pl0 hplx hb0key'
  obtain ⟨hPA, hlxx, hQB⟩ :=
    decomp_unique _ A x B hAfree hBfree P lx Q (hPQ.symm.trans hLd) hpat_lx
  have hplx0 : parseLine x = some pl0 := by
    rw [← hlxx]
    exact hplx
  have hxnh : '#' ∉ x := hnh x (by rw [hLd]; simp) hpatx
  have hcr : pl0.commentRaw = none := commentRaw_none_of_no_hash x pl0 hplx0 hxnh
  have hnoNLL : ∀ l ∈ splitNL c, '\n' ∉ l := fun l hl => noNL_of_mem_splitNL c l hl
  have hany1 : (parseBindings (splitNL c)).any (fun b => eqFold b.key key) = true := by
    rw [List.any_eq_true]
    exact ⟨b0, hb0mem, hb0key⟩
  have hr1 := commentBindingPrev_ok bk c key t1 hany1
  obtain ⟨A1, hE1, hA1free, hA1cases⟩ := commentEdit_forms key t1 A x B hAfree hpatx
  have hA1sub : ∀ z ∈ A1, z ∈ A := by
    rcases hA1cases with h | ⟨p0, h⟩
    · intro z hz
      rw [← h]
      exact hz
    · intro z hz
      rw [h]
      simp [hz]
  have hE1c : commentEdit key t1 (splitNL c) = A1 ++ ("# ".toList ++ t1) :: x :: B := by
    rw [hLd, hE1]
  have hnoNL1 : ∀ l ∈ A1 ++ ("# ".toList ++ t1) :: x :: B, '\n' ∉ l := by
    intro l hl
    rcases List.mem_append.1 hl with hl | hl
    · exact hnoNLL l (by rw [hLd]; exact List.mem_append_left _ (hA1sub l hl))
    · rcases List.mem_cons.1 hl with hl | hl
      · rw [hl]
        exact noNL_nc t1 ht1
      · exact hnoNLL l (by rw [hLd]; exact List.mem_append_right _ hl)
  have hrt1 : splitNL (joinNL (A1 ++ ("# ".toList ++ t1) :: x :: B)) =
      A1 ++ ("# ".toList ++ t1) :: x :: B :=
    splitNL_joinNL _ (by simp) hnoNL1
  have hr1f : (commentBindingPrev false false ⟨some c, bk⟩ key t1).1 =
      ⟨some (joinNL (A1 ++ ("# ".toList ++ t1) :: x :: B)),
        some (joinNL (A1 ++ ("# ".toList ++ t1) :: x :: B))⟩ := by
    rw [hE1c] at hr1
    rw [hr1]
  have hb1mem : mkBinding (some ("# ".toList ++ t1)) x
      (A1 ++ ["# ".toList ++ t1]).length pl0 ∈
      parseBindings (A1 ++ ("# ".toList ++ t1) :: x :: B) := by
    apply (mem_parseBindings _ _).2
    refine ⟨A1 ++ ["# ".toList ++ t1], x, B, pl0, by simp, hplx0, ?_⟩
    rw [prevOf_concat]
  have hany2 : (parseBindings (splitNL (joinNL (A1 ++ ("# ".toList ++ t1) :: x :: B)))).any
      (fun b => eqFold b.key key) = true := by
    rw [hrt1, List.any_eq_true]
    exact ⟨_, hb1mem, by rw [mkBinding_key]; exact hb0key'⟩
  have hr2 := commentBindingPrev_ok (some (joinNL (A1 ++ ("# ".toList ++ t1) :: x :: B)))
    (joinNL (A1 ++ ("# ".toList ++ t1) :: x :: B)) key t2 hany2
  have hfree1 : ∀ z ∈ A1 ++ ["# ".toList ++ t1], (commentPat true key z).isSome = false := by
    intro z hz
    rcases List.mem_append.1 hz with hz | hz
    · exact hA1free z hz
    · rw [List.mem_singleton.1 hz, commentPat_nc]
      rfl
  obtain ⟨A2, hE2, hA2free, hA2cases⟩ :=
    commentEdit_forms key t2 (A1 ++ ["# ".toList ++ t1]) x B hfree1 hpatx
  have hA2sub : ∀ z ∈ A2, z ∈ A1 ++ ["# ".toList ++ t1] := by
    rcases hA2cases with h | ⟨p0, h⟩
    · intro z hz
      rw [← h]
      exact hz
    · intro z hz
      rw [h]
      simp [hz]
  have hshape1 : A1 ++ ("# ".toList ++ t1) :: x :: B =
      (A1 ++ ["# ".toList ++ t1]) ++ x :: B := by simp
  have hE2c : commentEdit key t2 (splitNL (joinNL (A1 ++ ("# ".toList ++ t1) :: x :: B))) =
      A2 ++ ("# ".toList ++ t2) :: x :: B := by
    rw [hrt1, hshape1, hE2]
  have hnoNL2 : ∀ l ∈ A2 ++ ("# ".toList ++ t2) :: x :: B, '\n' ∉ l := by
    intro l hl
    rcases List.mem_append.1 hl with hl | hl
    · rcases List.mem_append.1 (hA2sub l hl) with hl' | hl'
      · exact hnoNLL l (by rw [hLd]; exact List.mem_append_left _ (hA1sub l hl'))
      · rw [List.mem_singleton.1 hl']
        exact noNL_nc t1 ht1
    · rcases List.mem_cons.1 hl with hl | hl
      · rw [hl]
        exact noNL_nc t2 ht2
      · exact hnoNLL l (by rw [hLd]; exact List.mem_append_right _ hl)
  have hrt2 : splitNL (joinNL (A2 ++ ("# ".toList ++ t2) :: x :: B)) =
      A2 ++ ("# ".toList ++ t2) :: x :: B :=
    splitNL_joinNL _ (by simp) hnoNL2
  refine ⟨joinNL (A2 ++ ("# ".toList ++ t2) :: x :: B), ?_, ?_, ?_⟩
  · rw [hr1f, hr2, hE2c]
  · rw [hrt2]
    refine ⟨mkBinding (some ("# ".toList ++ t2)) x
      (A2 ++ ["# ".toList ++ t2]).length pl0, ?_, ?_⟩
    · apply (mem_parseBindings _ _).2
      refine ⟨A2 ++ ["# ".toList ++ t2], x, B, pl0, by simp, hplx0, ?_⟩
      rw [prevOf_concat]
    · rw [mkBinding_key]
      exact hb0key'
  · intro b hb hbk
    rw [hrt2] at hb
    obtain ⟨P', l', Q', pl', hPQ', hpl', hb'⟩ := (mem_parseBindings _ _).1 hb
    have hbk' : eqFold pl'.key key = true := by
      rw [hb'] at hbk
      exact hbk
    have hpat' := commentPat_isSome_of_parse key l' pl' hpl' hbk'
    have hfree2 : ∀ z ∈ A2 ++ ["# ".toList ++ t2],
        (commentPat true key z).isSome = false := by
      intro z hz
      rcases List.mem_append.1 hz with hz | hz
      · exact hA2free z hz
      · rw [List.mem_singleton.1 hz, commentPat_nc]
        rfl
    have hshape2 : A2 ++ ("# ".toList ++ t2) :: x :: B =
        (A2 ++ ["# ".toList ++ t2]) ++ x :: B := by simp
    obtain ⟨hP', hl', hQ'⟩ := decomp_unique _ (A2 ++ ["# ".toList ++ t2]) x B
      hfree2 hBfree P' l' Q' (hPQ'.symm.trans hshape2) hpat'
    have hplsome : some pl' = some pl0 := by
      rw [← hpl', hl']
      exact hplx0
    have hpl'0 : pl' = pl0 := by
      injection hplsome
    rw [hb', hP', hpl'0, prevOf_concat]
    exact mkBinding_comment_nc l' _ pl0 hcr t2 ht2t ht2c

/-- Claim C7 (refuted as stated): on the file bindsym a b hash c, whose
binding carries an inline comment, commenting the key a twice with x then
y leaves the parsed comment c — the pre-existing inline comment still
wins over the newly written preceding line, so the end state is not
comment equal to the second text. -/
theorem c7_counterexample :
    (parseBindings (splitNL (((commentBindingPrev false false
        (commentBindingPrev false false
          ⟨some "bindsym a b # c".toList, none⟩ "a".toList "x".toList).1
        "a".toList "y".toList).1).config.getD []))).map (fun b => b.comment) =
      ["c".toList] ∧ ("c".toList : Str) ≠ "y".toList := by decide

/-- Witness for the amended C7 at a concrete input: on bindsym a b,
commenting twice with x then y leaves exactly the adopted comment y. -/
theorem c7_witness :
    ∃ c2,
      commentBindingPrev false false
          (commentBindingPrev false false ⟨some "bindsym a b".toList, none⟩
            "a".toList "x".toList).1 "a".toList "y".toList =
        (⟨some c2, some c2⟩, .ok ()) ∧
      (∃ b ∈ parseBindings (splitNL c2), eqFold b.key "a".toList = true) ∧
      (∀ b ∈ parseBindings (splitNL c2), eqFold b.key "a".toList = true →
        b.comment = "y".toList) :=
  c7_comment_twice_amended "bindsym a b".toList none "a".toList "x".toList "y".toList
    (by decide) (by decide) (by decide) (by decide) (by decide) (by decide) (by decide)
